import Mathlib

/-!
Shallow embedding of the SPP maze-demo generation core
(`src/spp-examples/maze-demo/js/maze-generator.js` and
`src/spp-examples/maze-demo/js/particle.js`).

JavaScript `Map`/`Set` are modelled as insertion-ordered association
lists; the ambient `Math.random()` source is modelled as an explicit
stream `g : Nat → Nat` together with a running draw index `n`, where the
JS expression `Math.floor(Math.random() * k)` (only ever evaluated with
`k > 0`) becomes `g n % k` followed by `n + 1`.  Loops whose JS form is
`while` are given explicit fuel that dominates a strictly decreasing
measure of the loop (queue length plus three times the number of
uncollapsed in-domain cells, see `generateCascade`), so the fuel never
runs out on the modelled loop.
-/

namespace SPP

/-- `OPEN_IDS` from particle.js (option registry entries of type open). -/
def OPEN_IDS : List Nat := [0, 1, 2]

/-- `WALL_IDS` from particle.js. -/
def WALL_IDS : List Nat := [10, 11, 12, 13]

/-- `ALL_IDS` from particle.js. -/
def ALL_IDS : List Nat := OPEN_IDS ++ WALL_IDS

/-- `OPPOSITE_FACE` from particle.js (faces POS_X=0, NEG_X=1, POS_Y=2, NEG_Y=3, POS_Z=4, NEG_Z=5). -/
def oppositeFace : Nat → Nat
  | 0 => 1
  | 1 => 0
  | 2 => 3
  | 3 => 2
  | 4 => 5
  | 5 => 4
  | n + 6 => n + 6

/-- x-component of `FACE_DIRECTION`. -/
def faceDX : Nat → Int
  | 0 => 1
  | 1 => -1
  | _ => 0

/-- z-component of `FACE_DIRECTION`. -/
def faceDZ : Nat → Int
  | 4 => 1
  | 5 => -1
  | _ => 0

/-- `HORIZONTAL_FACES` from maze-generator.js. -/
def HORIZONTAL_FACES : List Nat := [0, 1, 4, 5]

/-- `ParticleCell` (particle.js / SPP-Core section 3.1). -/
structure Cell where
  position : Int × Int × Int
  size : Nat × Nat × Nat
  faceStates : Nat
  faceOptions : List (List Nat)
deriving DecidableEq, Repr

/-- `createCell` from particle.js. -/
def createCell (x y z : Int) : Cell :=
  { position := (x, y, z)
    size := (1, 1, 1)
    faceStates := 63
    faceOptions := [ALL_IDS, ALL_IDS, [], [], ALL_IDS, ALL_IDS] }

/-- `createGridCell` from maze-generator.js. -/
def createGridCell (x z : Int) : Cell :=
  { position := (x, 0, z)
    size := (1, 1, 1)
    faceStates := 63
    faceOptions := [WALL_IDS, WALL_IDS, [], [], WALL_IDS, WALL_IDS] }

/-- Position keys: the JS code uses the string key `x,z`; the pair of the
two integers is an equivalent injective key. -/
abbrev Key := Int × Int

/-- Insertion-ordered map mirroring a JS `Map` keyed by position keys. -/
abbrev JMap (β : Type) := List (Key × β)

/-- `Map.prototype.get`. -/
def jGet? {β : Type} : JMap β → Key → Option β
  | [], _ => none
  | p :: m, k => if p.1 = k then some p.2 else jGet? m k

/-- `Map.prototype.has`. -/
def jHas {β : Type} (m : JMap β) (k : Key) : Bool := (jGet? m k).isSome

/-- `Map.prototype.set`: updates in place, appends when absent. -/
def jSet {β : Type} : JMap β → Key → β → JMap β
  | [], k, v => [(k, v)]
  | p :: m, k, v => if p.1 = k then (k, v) :: m else p :: jSet m k v

/-- Keys of the map, in insertion order. -/
def jKeys {β : Type} (m : JMap β) : List Key := m.map (·.1)

/-- One draw of `Math.floor(Math.random() * k)` from the modelled stream. -/
def rand (g : Nat → Nat) (n k : Nat) : Nat := g n % k

/-- Fisher-Yates loop body of `shuffle` (maze-generator.js line 17):
`i` counts down; one draw per index. -/
def shuffleAux (g : Nat → Nat) : Nat → List Nat → Nat → List Nat × Nat
  | 0, a, n => (a, n)
  | i + 1, a, n =>
      let j := rand g n (i + 2)
      let ai := a.getD (i + 1) 0
      let aj := a.getD j 0
      shuffleAux g i ((a.set (i + 1) aj).set j ai) (n + 1)

/-- `shuffle` from maze-generator.js. -/
def shuffle (g : Nat → Nat) (a : List Nat) (n : Nat) : List Nat × Nat :=
  shuffleAux g (a.length - 1) a n

/-- The domain membership test `inBounds` from `generateCascade`. -/
def inBounds (halfX halfZ : Nat) (x z : Int) : Bool :=
  decide (-(halfX : Int) ≤ x ∧ x ≤ halfX ∧ -(halfZ : Int) ≤ z ∧ z ≤ halfZ)

/-- The keys created by Phase 1, in the JS double-loop order
(`x` ascending outer, `z` ascending inner). -/
def domainKeys (halfX halfZ : Nat) : List Key :=
  (List.range (2 * halfX + 1)).flatMap (fun (i : Nat) =>
    (List.range (2 * halfZ + 1)).map (fun (j : Nat) =>
      (((i : Int) - (halfX : Int)), ((j : Int) - (halfZ : Int)))))

/-- A frontier queue entry `{x, z, face, nx, nz}`. -/
structure QItem where
  qx : Int
  qz : Int
  qface : Nat
  qnx : Int
  qnz : Int
deriving DecidableEq, Repr

/-- The mutable state of Phases 2 and 2b of `generateCascade`:
the grid map, the `collapsed` set (insertion-ordered, so its length is
the JS `Set.size`), the collapse order (key and `fromFace`), the
adjacency record, the frontier queue and the random-draw index. -/
structure GenState where
  gridCells : JMap Cell
  collapsed : List Key
  collapseOrder : List (Key × Int)
  connections : JMap (List Key)
  queue : List QItem
  rn : Nat
deriving Repr

/-- Overwrite one face-options entry of the cell stored at `k`. -/
def setCellFace (m : JMap Cell) (k : Key) (f : Nat) (opts : List Nat) : JMap Cell :=
  match jGet? m k with
  | none => m
  | some c => jSet m k { c with faceOptions := c.faceOptions.set f opts }

/-- `if (!connections.has(key)) connections.set(key, new Set())`. -/
def ensureConn (m : JMap (List Key)) (k : Key) : JMap (List Key) :=
  if jHas m k then m else jSet m k []

/-- `connections.get(a).add(b)` (a Set add: append if absent). -/
def connAdd (m : JMap (List Key)) (a b : Key) : JMap (List Key) :=
  let l := (jGet? m a).getD []
  jSet m a (if b ∈ l then l else l ++ [b])

/-- The extra-edge pushes of one Phase-2 expansion (lines 109-117):
`cnt = min(extraConnections, remainingFaces.length)` faces are taken in
order, each pushed only if in-domain and uncollapsed. -/
def pushExtras (halfX halfZ : Nat) (collapsed : List Key) (nx nz : Int)
    (faces : List Nat) (cnt : Nat) : List QItem :=
  (List.range cnt).filterMap (fun i =>
    match faces.get? i with
    | none => none
    | some f =>
      let nnx := nx + faceDX f
      let nnz := nz + faceDZ f
      if inBounds halfX halfZ nnx nnz && decide (((nnx, nnz) : Key) ∉ collapsed) then
        some ⟨nx, nz, f, nnx, nnz⟩
      else none)

/-- The body of one Phase-2 `while` iteration after the shift
(maze-generator.js lines 86-117). -/
def phase2Body (g : Nat → Nat) (halfX halfZ : Nat) (it : QItem) (rest : List QItem)
    (s : GenState) : GenState :=
  let nKey : Key := (it.qnx, it.qnz)
  let srcKey : Key := (it.qx, it.qz)
  if nKey ∈ s.collapsed then { s with queue := rest }
  else
    let collapsed1 := s.collapsed ++ [nKey]
    let oppF := oppositeFace it.qface
    let grid1 := setCellFace s.gridCells srcKey it.qface OPEN_IDS
    let grid2 := setCellFace grid1 nKey oppF OPEN_IDS
    let conn1 := ensureConn s.connections srcKey
    let conn2 := ensureConn conn1 nKey
    let conn3 := connAdd conn2 srcKey nKey
    let conn4 := connAdd conn3 nKey srcKey
    let order1 := s.collapseOrder ++ [(nKey, (oppF : Int))]
    let sh := shuffle g (HORIZONTAL_FACES.filter (fun f => f ≠ oppF)) s.rn
    let extra := rand g sh.2 3
    let pushes := pushExtras halfX halfZ collapsed1 it.qnx it.qnz sh.1 (min extra sh.1.length)
    { gridCells := grid2, collapsed := collapsed1, collapseOrder := order1,
      connections := conn4, queue := rest ++ pushes, rn := sh.2 + 1 }

/-- The Phase-2 `while (queue.length > 0 && collapsed.size < target)` loop. -/
def phase2Loop (g : Nat → Nat) (halfX halfZ target : Nat) : Nat → GenState → GenState
  | 0, s => s
  | fuel + 1, s =>
    match s.queue with
    | [] => s
    | it :: rest =>
      if s.collapsed.length < target then
        phase2Loop g halfX halfZ target fuel (phase2Body g halfX halfZ it rest s)
      else s

/-- One carve of the fill pass (maze-generator.js lines 133-142). -/
def fillCarve (key nKey : Key) (f : Nat) (s : GenState) : GenState :=
  let oppF := oppositeFace f
  let grid1 := setCellFace s.gridCells key f OPEN_IDS
  let grid2 := setCellFace grid1 nKey oppF OPEN_IDS
  let collapsed1 := s.collapsed ++ [nKey]
  let order1 := s.collapseOrder ++ [(nKey, (oppF : Int))]
  let conn1 := ensureConn s.connections key
  let conn2 := ensureConn conn1 nKey
  let conn3 := connAdd conn2 key nKey
  let conn4 := connAdd conn3 nKey key
  { s with gridCells := grid2, collapsed := collapsed1,
           collapseOrder := order1, connections := conn4 }

/-- The inner face loop of the fill pass, with its per-face target break. -/
def fillFaces (halfX halfZ target : Nat) (key : Key) (pos : Int × Int) :
    List Nat → GenState → GenState
  | [], s => s
  | f :: fs, s =>
    if s.collapsed.length ≥ target then s
    else
      let nx := pos.1 + faceDX f
      let nz := pos.2 + faceDZ f
      let nKey : Key := (nx, nz)
      if inBounds halfX halfZ nx nz && decide (nKey ∉ s.collapsed) then
        fillFaces halfX halfZ target key pos fs (fillCarve key nKey f s)
      else fillFaces halfX halfZ target key pos fs s

/-- Visiting one connected grid cell during the fill pass: one shuffle of
the four horizontal faces, then the face loop. -/
def fillCellStep (g : Nat → Nat) (halfX halfZ target : Nat) (k : Key) (s : GenState) :
    GenState :=
  match jGet? s.gridCells k with
  | none => s
  | some cell =>
    let sh := shuffle g HORIZONTAL_FACES s.rn
    fillFaces halfX halfZ target k (cell.position.1, cell.position.2.2) sh.1
      { s with rn := sh.2 }

/-- Phase 2b: the `for (const [key, cell] of gridCells)` fill loop, with
`continue` on unconnected keys and `break` once the target is reached. -/
def fillLoop (g : Nat → Nat) (halfX halfZ target : Nat) : List Key → GenState → GenState
  | [], s => s
  | k :: ks, s =>
    if decide (k ∉ s.collapsed) then fillLoop g halfX halfZ target ks s
    else if s.collapsed.length ≥ target then s
    else fillLoop g halfX halfZ target ks (fillCellStep g halfX halfZ target k s)

/-- One face draw of `collapseCell` (particle.js line 96-99): empty lists
stay empty and draw nothing, a non-empty list becomes the singleton of a
uniformly drawn element. -/
def collapseList (g : Nat → Nat) (opts : List Nat) (n : Nat) : List Nat × Nat :=
  if opts.length = 0 then ([], n)
  else ([opts.getD (rand g n opts.length) 0], n + 1)

/-- `cell.faceOptions.map(...)` of `collapseCell`, drawing left to right. -/
def collapseFaceOptions (g : Nat → Nat) : List (List Nat) → Nat → List (List Nat) × Nat
  | [], n => ([], n)
  | o :: os, n =>
    let c := collapseList g o n
    let cs := collapseFaceOptions g os c.2
    (c.1 :: cs.1, cs.2)

/-- `collapseCell` from particle.js. -/
def collapseCell (g : Nat → Nat) (cell : Cell) (n : Nat) : Cell × Nat :=
  let fo := collapseFaceOptions g cell.faceOptions n
  ({ cell with faceOptions := fo.1 }, fo.2)

/-- Phase 3 first half (lines 149-152): collapse every cell of the
collapse order, inserting into a fresh map in collapse order. -/
def collapsePhase (g : Nat → Nat) (grid : JMap Cell) :
    List (Key × Int) → JMap Cell → Nat → JMap Cell × Nat
  | [], acc, n => (acc, n)
  | (k, _) :: rest, acc, n =>
    match jGet? grid k with
    | none => collapsePhase g grid rest acc n
    | some cell =>
      let c := collapseCell g cell n
      collapsePhase g grid rest (jSet acc k c.1) c.2

/-- One face of the neighbor-repair pass (lines 156-167): if the cell at
`k` has this face resolved to a single open id, overwrite the opposite
face of the in-map neighbor with a copy of it. -/
def faceStep (m : JMap Cell) (k : Key) (f : Nat) : JMap Cell :=
  match jGet? m k with
  | none => m
  | some cell =>
    let nKey : Key := (cell.position.1 + faceDX f, cell.position.2.2 + faceDZ f)
    match jGet? m nKey with
    | none => m
    | some neighbor =>
      let myOpt := cell.faceOptions.getD f []
      if myOpt.length = 1 ∧ myOpt.getD 0 0 ∈ OPEN_IDS then
        jSet m nKey
          { neighbor with faceOptions := neighbor.faceOptions.set (oppositeFace f) myOpt }
      else m

/-- Processing one cell of the repair pass: its four horizontal faces in
the fixed enumeration order. -/
def repairStep (m : JMap Cell) (k : Key) : JMap Cell :=
  HORIZONTAL_FACES.foldl (fun m f => faceStep m k f) m

/-- The repair pass run with an explicit visitation order of cell keys. -/
def repairWithOrder (order : List Key) (m : JMap Cell) : JMap Cell :=
  order.foldl repairStep m

/-- The neighbor-repair pass as written (lines 154-168): sequential
iteration over the map in insertion order, reading live values. -/
def repairPass (m : JMap Cell) : JMap Cell := repairWithOrder (jKeys m) m

/-- The record returned by `generateCascade`. -/
structure GenResult where
  gridCells : JMap Cell
  collapseOrder : List (Key × Int)
  collapsedCells : JMap Cell
  gridX : Nat
  gridZ : Nat
  halfX : Nat
  halfZ : Nat
deriving Repr

/-- The initial frontier pushes from the center (lines 77-83). -/
def centerQueue (halfX halfZ : Nat) (collapsed : List Key) (faces : List Nat) : List QItem :=
  faces.filterMap (fun face =>
    let dx := faceDX face
    let dz := faceDZ face
    if inBounds halfX halfZ dx dz && decide (((dx, dz) : Key) ∉ collapsed) then
      some ⟨0, 0, face, dx, dz⟩
    else none)

/-- Phase 1 and the center seeding: the state entering the Phase-2 loop
(grid of wall-default cells over the domain, origin collapsed first,
center frontier pushes drawn from one shuffle of the horizontal faces). -/
def initState (gridX gridZ : Nat) (g : Nat → Nat) : GenState :=
  let halfX := gridX / 2
  let halfZ := gridZ / 2
  let dom := domainKeys halfX halfZ
  let grid0 : JMap Cell := dom.foldl (fun m k => jSet m k (createGridCell k.1 k.2)) []
  let centerKey : Key := (0, 0)
  let sh := shuffle g HORIZONTAL_FACES 0
  { gridCells := grid0
    collapsed := [centerKey]
    collapseOrder := [(centerKey, -1)]
    connections := jSet [] centerKey []
    queue := centerQueue halfX halfZ [centerKey] sh.1
    rn := sh.2 }

/-- Phases 1, 2 and 2b of `generateCascade`, with the ambient random
source made explicit.  The Phase-2 fuel `4 + 3 * |domain| + 1` dominates
the strictly decreasing measure `queue.length + 3 * |uncollapsed domain
cells|` (a skipped item costs 1 queue slot; a connect costs 1 slot and
one uncollapsed cell and adds at most 2 slots), so the modelled loop
always runs to its JS exit condition. -/
def genGrowth (gridX gridZ targetCells : Nat) (g : Nat → Nat) : GenState :=
  let halfX := gridX / 2
  let halfZ := gridZ / 2
  let target := min targetCells (gridX * gridZ)
  let fuel := 4 + 3 * (domainKeys halfX halfZ).length + 1
  let s1 := phase2Loop g halfX halfZ target fuel (initState gridX gridZ g)
  if s1.collapsed.length < target then
    fillLoop g halfX halfZ target (jKeys s1.gridCells) s1
  else s1

/-- The chunk after the independent collapse of Phase 3, before the
neighbor-repair pass. -/
def preRepair (gridX gridZ targetCells : Nat) (g : Nat → Nat) : JMap Cell :=
  let s2 := genGrowth gridX gridZ targetCells g
  (collapsePhase g s2.gridCells s2.collapseOrder [] s2.rn).1

/-- `generateCascade` from maze-generator.js: growth, per-face collapse,
then the neighbor-repair pass over the collapsed map in insertion order. -/
def generateCascade (gridX gridZ targetCells : Nat) (g : Nat → Nat) : GenResult :=
  let s2 := genGrowth gridX gridZ targetCells g
  let repaired := repairPass (preRepair gridX gridZ targetCells g)
  { gridCells := s2.gridCells, collapseOrder := s2.collapseOrder,
    collapsedCells := repaired, gridX := gridX, gridZ := gridZ,
    halfX := gridX / 2, halfZ := gridZ / 2 }

/-- The open-single-option test of findPath and the repair pass:
`myOpt.length === 1 && OPEN_IDS.includes(myOpt[0])`. -/
def openSingleB (opts : List Nat) : Bool :=
  opts.length == 1 && OPEN_IDS.contains (opts.getD 0 0)

/-- The inner face loop of `findPath` (lines 197-210): on finding the
goal return the extended path at once; otherwise collect visited marks
and queue pushes in face order. -/
def stepFaces (m : JMap Cell) (endKey : Key) (path : List Key) (pos : Int × Int)
    (cell : Cell) : List Nat → List Key → List (List Key) →
    (List Key) ⊕ (List Key × List (List Key))
  | [], vis, q => Sum.inr (vis, q)
  | f :: fs, vis, q =>
    let myOpt := cell.faceOptions.getD f []
    if openSingleB myOpt then
      let nextKey : Key := (pos.1 + faceDX f, pos.2 + faceDZ f)
      if nextKey = endKey then Sum.inl (path ++ [nextKey])
      else if jHas m nextKey && decide (nextKey ∉ vis) then
        stepFaces m endKey path pos cell fs (vis ++ [nextKey]) (q ++ [path ++ [nextKey]])
      else stepFaces m endKey path pos cell fs vis q
    else stepFaces m endKey path pos cell fs vis q

/-- The BFS `while` loop of `findPath`, with fuel. -/
def bfsLoop (m : JMap Cell) (endKey : Key) : Nat → List (List Key) → List Key →
    Option (List Key)
  | 0, _, _ => none
  | _ + 1, [], _ => none
  | fuel + 1, path :: rest, vis =>
    let currKey := path.getLastD (0, 0)
    match jGet? m currKey with
    | none => none
    | some cell =>
      match stepFaces m endKey path (cell.position.1, cell.position.2.2) cell
          HORIZONTAL_FACES vis rest with
      | Sum.inl found => some found
      | Sum.inr vq => bfsLoop m endKey fuel vq.2 vq.1

/-- `findPath` from maze-generator.js.  The fuel `m.length + 1` dominates
the strictly decreasing measure `queue.length + |keys not yet visited|`
(each iteration pops one path and pairs every push with a fresh visited
key), so on maps with distinct keys the loop always reaches its JS exit. -/
def findPath (m : JMap Cell) (startKey endKey : Key) : Option (List Key) :=
  if jHas m startKey && jHas m endKey then
    if startKey = endKey then some [startKey]
    else bfsLoop m endKey (m.length + 1) [[startKey]] [startKey]
  else none

/-! ## Semantic predicates used by the claims -/

/-- The key of the grid neighbor across face `f`. -/
def adjK (k : Key) (f : Nat) : Key := (k.1 + faceDX f, k.2 + faceDZ f)

/-- The face-options list of the cell stored at `k` (empty when absent). -/
def faceAt (m : JMap Cell) (k : Key) (f : Nat) : List Nat :=
  match jGet? m k with
  | some c => c.faceOptions.getD f []
  | none => []

/-- The code's open test: a single option whose id is an open kind. -/
def openS (l : List Nat) : Prop := l.length = 1 ∧ l.getD 0 0 ∈ OPEN_IDS

instance (l : List Nat) : Decidable (openS l) := by unfold openS; infer_instance

/-- Carved adjacency inside a collapsed set: both endpoints connected and
both sides of the shared face forced to the full open-candidate list. -/
def carvedIn (m : JMap Cell) (C : List Key) (a b : Key) : Prop :=
  a ∈ C ∧ b ∈ C ∧ ∃ f ∈ HORIZONTAL_FACES, b = adjK a f ∧
    faceAt m a f = OPEN_IDS ∧ faceAt m b (oppositeFace f) = OPEN_IDS

/-- Open adjacency on a resolved chunk: both cells present and the first
cell's shared face resolved to a single open id. -/
def openAdj (m : JMap Cell) (a b : Key) : Prop :=
  a ∈ jKeys m ∧ b ∈ jKeys m ∧ ∃ f ∈ HORIZONTAL_FACES, b = adjK a f ∧ openS (faceAt m a f)

/-- Every stored cell's position field is the grid position its key names. -/
def Coh (m : JMap Cell) : Prop :=
  ∀ p ∈ m, p.2.position = ((p.1.1 : Int), (0 : Int), (p.1.2 : Int))

instance (m : JMap Cell) : Decidable (Coh m) := by unfold Coh; infer_instance

/-- Every stored cell carries exactly six face-option lists. -/
def Shape6 (m : JMap Cell) : Prop := ∀ p ∈ m, p.2.faceOptions.length = 6

instance (m : JMap Cell) : Decidable (Shape6 m) := by unfold Shape6; infer_instance

/-! ## Map and list lemmas -/

theorem jKeys_nil {β : Type} : jKeys ([] : JMap β) = [] := rfl

theorem jKeys_cons {β : Type} (p : Key × β) (m : JMap β) :
    jKeys (p :: m) = p.1 :: jKeys m := rfl

theorem jGet?_mem {β : Type} {m : JMap β} {k : Key} {v : β} (h : jGet? m k = some v) :
    k ∈ jKeys m := by
  induction m with
  | nil => simp [jGet?] at h
  | cons p m ih =>
    rw [jKeys_cons, List.mem_cons]
    by_cases hp : p.1 = k
    · exact Or.inl hp.symm
    · simp only [jGet?, hp, if_false] at h
      exact Or.inr (ih h)

theorem mem_jKeys {β : Type} {m : JMap β} {k : Key} (h : k ∈ jKeys m) :
    ∃ v, jGet? m k = some v := by
  induction m with
  | nil => simp [jKeys_nil] at h
  | cons p m ih =>
    by_cases hp : p.1 = k
    · exact ⟨p.2, by simp [jGet?, hp]⟩
    · rw [jKeys_cons, List.mem_cons] at h
      rcases h with h | h
      · exact absurd h.symm hp
      · obtain ⟨v, hv⟩ := ih h
        exact ⟨v, by simp [jGet?, hp, hv]⟩

theorem jGet?_eq_none {β : Type} {m : JMap β} {k : Key} (h : k ∉ jKeys m) :
    jGet? m k = none := by
  cases hg : jGet? m k with
  | none => rfl
  | some v => exact absurd (jGet?_mem hg) h

theorem jGet?_jSet_self {β : Type} (m : JMap β) (k : Key) (v : β) :
    jGet? (jSet m k v) k = some v := by
  induction m with
  | nil => simp [jSet, jGet?]
  | cons p m ih =>
    by_cases hp : p.1 = k
    · simp [jSet, hp, jGet?]
    · simp [jSet, hp, jGet?, ih]

theorem jGet?_jSet_ne {β : Type} (m : JMap β) {k k' : Key} (v : β) (h : k' ≠ k) :
    jGet? (jSet m k v) k' = jGet? m k' := by
  have hkk : ¬ (k = k') := fun hh => h hh.symm
  induction m with
  | nil => simp [jSet, jGet?, hkk]
  | cons p m ih =>
    by_cases hp : p.1 = k
    · subst hp
      have hne : ¬ (p.1 = k') := hkk
      simp [jSet, jGet?, hne]
    · by_cases hp' : p.1 = k'
      · simp [jSet, hp, jGet?, hp', h]
      · simp [jSet, hp, jGet?, hp', ih]

theorem jKeys_jSet_mem {β : Type} {m : JMap β} {k : Key} (v : β) (h : k ∈ jKeys m) :
    jKeys (jSet m k v) = jKeys m := by
  induction m with
  | nil => simp [jKeys_nil] at h
  | cons p m ih =>
    by_cases hp : p.1 = k
    · simp [jSet, hp, jKeys_cons]
    · rw [jKeys_cons, List.mem_cons] at h
      rcases h with h | h
      · exact absurd h.symm hp
      · simp [jSet, hp, jKeys_cons, ih h]

theorem jKeys_jSet_not_mem {β : Type} {m : JMap β} {k : Key} (v : β) (h : k ∉ jKeys m) :
    jKeys (jSet m k v) = jKeys m ++ [k] := by
  induction m with
  | nil => simp [jSet, jKeys_nil, jKeys_cons]
  | cons p m ih =>
    rw [jKeys_cons] at h
    have hp : p.1 ≠ k := fun hh => h (hh ▸ List.mem_cons_self _ _)
    have h' : k ∉ jKeys m := fun hh => h (List.mem_cons_of_mem _ hh)
    simp [jSet, hp, jKeys_cons, ih h']

theorem jSet_self {β : Type} {m : JMap β} {k : Key} {v : β} (h : jGet? m k = some v) :
    jSet m k v = m := by
  induction m with
  | nil => simp [jGet?] at h
  | cons p m ih =>
    by_cases hp : p.1 = k
    · have hv : p.2 = v := by
        have := h
        simp only [jGet?, hp, if_true, Option.some.injEq] at this
        exact this
      show (if p.1 = k then (k, v) :: m else p :: jSet m k v) = p :: m
      rw [if_pos hp, ← hp, ← hv]
    · simp only [jGet?, hp, if_false] at h
      show (if p.1 = k then (k, v) :: m else p :: jSet m k v) = p :: m
      rw [if_neg hp, ih h]

theorem jMap_ext {β : Type} {m₁ m₂ : JMap β} (hk : jKeys m₁ = jKeys m₂)
    (hnd : (jKeys m₁).Nodup) (h : ∀ k, jGet? m₁ k = jGet? m₂ k) : m₁ = m₂ := by
  induction m₁ generalizing m₂ with
  | nil =>
    cases m₂ with
    | nil => rfl
    | cons q m₂ => rw [jKeys_nil, jKeys_cons] at hk; exact absurd hk (by simp)
  | cons p m₁ ih =>
    cases m₂ with
    | nil => rw [jKeys_nil, jKeys_cons] at hk; exact absurd hk (by simp)
    | cons q m₂ =>
      rw [jKeys_cons, jKeys_cons] at hk
      injection hk with hpq htl
      have hv : p.2 = q.2 := by
        have hq := h p.1
        simp [jGet?, hpq] at hq
        exact hq
      rw [jKeys_cons] at hnd
      have hnd' := List.nodup_cons.mp hnd
      have hnotmem : p.1 ∉ jKeys m₁ := hnd'.1
      have hnotmem₂ : p.1 ∉ jKeys m₂ := htl ▸ hnotmem
      have hrest : ∀ k, jGet? m₁ k = jGet? m₂ k := by
        intro k
        by_cases hkp : k = p.1
        · subst hkp
          rw [jGet?_eq_none hnotmem, jGet?_eq_none hnotmem₂]
        · have hq := h k
          have h1 : ¬ (p.1 = k) := fun hh => hkp hh.symm
          have h2 : ¬ (q.1 = k) := fun hh => hkp (hpq ▸ hh).symm
          simpa [jGet?, h1, h2] using hq
      have htail : m₁ = m₂ := ih htl hnd'.2 hrest
      obtain ⟨p1, p2⟩ := p
      obtain ⟨q1, q2⟩ := q
      simp only at hpq hv
      rw [hpq, hv, htail]

theorem getD_set_self {α : Type} (l : List α) {i : Nat} (v d : α) (h : i < l.length) :
    (l.set i v).getD i d = v := by
  simp [List.getD_eq_getElem?_getD, List.getElem?_set_self h]

theorem getD_set_ne {α : Type} (l : List α) {i j : Nat} (v d : α) (h : i ≠ j) :
    (l.set i v).getD j d = l.getD j d := by
  simp [List.getD_eq_getElem?_getD, List.getElem?_set_ne h]

theorem set_getD_self {α : Type} {l : List α} {i : Nat} {v d : α}
    (hlen : i < l.length) (h : l.getD i d = v) : l.set i v = l := by
  induction l generalizing i with
  | nil => simp at hlen
  | cons x xs ih =>
    cases i with
    | zero => simp [List.getD_cons_zero] at h; simp [h]
    | succ n =>
      simp only [List.getD_cons_succ] at h
      simp only [List.length_cons, Nat.add_lt_add_iff_right] at hlen
      simp [List.set, ih hlen h]

/-! ### setCellFace lemmas -/

theorem jKeys_setCellFace (m : JMap Cell) (k : Key) (f : Nat) (o : List Nat) :
    jKeys (setCellFace m k f o) = jKeys m := by
  unfold setCellFace
  cases hg : jGet? m k with
  | none => rfl
  | some c => exact jKeys_jSet_mem _ (jGet?_mem hg)

theorem setCellFace_get_self {m : JMap Cell} {k : Key} {c : Cell} (f : Nat) (o : List Nat)
    (h : jGet? m k = some c) :
    jGet? (setCellFace m k f o) k = some { c with faceOptions := c.faceOptions.set f o } := by
  unfold setCellFace
  rw [h]
  exact jGet?_jSet_self _ _ _

theorem setCellFace_get_ne (m : JMap Cell) {k k' : Key} (f : Nat) (o : List Nat)
    (h : k' ≠ k) : jGet? (setCellFace m k f o) k' = jGet? m k' := by
  unfold setCellFace
  cases hg : jGet? m k with
  | none => rfl
  | some c => exact jGet?_jSet_ne _ _ h

/-! ## Face arithmetic -/

theorem horiz_cases {f : Nat} (hf : f ∈ HORIZONTAL_FACES) : f = 0 ∨ f = 1 ∨ f = 4 ∨ f = 5 := by
  simpa [HORIZONTAL_FACES] using hf

theorem opp_mem_horiz {f : Nat} (hf : f ∈ HORIZONTAL_FACES) :
    oppositeFace f ∈ HORIZONTAL_FACES := by
  rcases horiz_cases hf with rfl | rfl | rfl | rfl <;> simp [oppositeFace, HORIZONTAL_FACES]

theorem opp_opp {f : Nat} (hf : f ∈ HORIZONTAL_FACES) : oppositeFace (oppositeFace f) = f := by
  rcases horiz_cases hf with rfl | rfl | rfl | rfl <;> rfl

theorem opp_inj {f f' : Nat} (hf : f ∈ HORIZONTAL_FACES) (hf' : f' ∈ HORIZONTAL_FACES)
    (h : oppositeFace f = oppositeFace f') : f = f' := by
  rcases horiz_cases hf with rfl | rfl | rfl | rfl <;>
    rcases horiz_cases hf' with rfl | rfl | rfl | rfl <;> simp_all [oppositeFace]

theorem horiz_lt_6 {f : Nat} (hf : f ∈ HORIZONTAL_FACES) : f < 6 := by
  rcases horiz_cases hf with rfl | rfl | rfl | rfl <;> omega

theorem opp_lt_6 {f : Nat} (hf : f ∈ HORIZONTAL_FACES) : oppositeFace f < 6 :=
  horiz_lt_6 (opp_mem_horiz hf)

theorem adjK_opp {f : Nat} (hf : f ∈ HORIZONTAL_FACES) (k : Key) :
    adjK (adjK k f) (oppositeFace f) = k := by
  obtain ⟨a, b⟩ := k
  rcases horiz_cases hf with rfl | rfl | rfl | rfl <;>
    simp [adjK, oppositeFace, faceDX, faceDZ]

theorem adjK_ne {f : Nat} (hf : f ∈ HORIZONTAL_FACES) (k : Key) : adjK k f ≠ k := by
  obtain ⟨a, b⟩ := k
  rcases horiz_cases hf with rfl | rfl | rfl | rfl <;>
    simp [adjK, faceDX, faceDZ, Prod.ext_iff]

theorem adjK_inj {f : Nat} {k k' : Key} (h : adjK k f = adjK k' f) : k = k' := by
  obtain ⟨a, b⟩ := k
  obtain ⟨a', b'⟩ := k'
  simp only [adjK, Prod.mk.injEq] at h
  obtain ⟨h1, h2⟩ := h
  simp only [Prod.mk.injEq]
  omega

theorem openS_nil : ¬ openS [] := by simp [openS]

/-! ## Cell lookup helpers -/

theorem jGet?_entry_mem {β : Type} {m : JMap β} {k : Key} {v : β}
    (h : jGet? m k = some v) : (k, v) ∈ m := by
  induction m with
  | nil => simp [jGet?] at h
  | cons p m ih =>
    by_cases hp : p.1 = k
    · simp only [jGet?, hp, if_true, Option.some.injEq] at h
      have hpkv : p = (k, v) := by
        obtain ⟨p1, p2⟩ := p
        simp only at hp h
        rw [hp, h]
      rw [hpkv]
      exact List.mem_cons_self _ _
    · simp only [jGet?, hp, if_false] at h
      exact List.mem_cons_of_mem _ (ih h)

theorem coh_get {m : JMap Cell} (hc : Coh m) {k : Key} {c : Cell}
    (h : jGet? m k = some c) : c.position = ((k.1 : Int), (0 : Int), (k.2 : Int)) :=
  hc (k, c) (jGet?_entry_mem h)

theorem shape_get {m : JMap Cell} (hs : Shape6 m) {k : Key} {c : Cell}
    (h : jGet? m k = some c) : c.faceOptions.length = 6 :=
  hs (k, c) (jGet?_entry_mem h)

theorem coh_jSet {m : JMap Cell} {k : Key} {v : Cell} (hm : Coh m)
    (hv : v.position = ((k.1 : Int), (0 : Int), (k.2 : Int))) : Coh (jSet m k v) := by
  intro p hp
  induction m with
  | nil => simp [jSet] at hp; rw [hp]; exact hv
  | cons q m ih =>
    by_cases hq : q.1 = k
    · simp only [jSet, hq, if_true] at hp
      rcases List.mem_cons.mp hp with h | h
      · rw [h]; exact hv
      · exact hm p (List.mem_cons_of_mem _ h)
    · simp only [jSet, hq, if_false] at hp
      rcases List.mem_cons.mp hp with h | h
      · rw [h]; exact hm q (List.mem_cons_self _ _)
      · exact ih (fun p hp => hm p (List.mem_cons_of_mem _ hp)) h

theorem shape_jSet {m : JMap Cell} {k : Key} {v : Cell} (hm : Shape6 m)
    (hv : v.faceOptions.length = 6) : Shape6 (jSet m k v) := by
  intro p hp
  induction m with
  | nil => simp [jSet] at hp; rw [hp]; exact hv
  | cons q m ih =>
    by_cases hq : q.1 = k
    · simp only [jSet, hq, if_true] at hp
      rcases List.mem_cons.mp hp with h | h
      · rw [h]; exact hv
      · exact hm p (List.mem_cons_of_mem _ h)
    · simp only [jSet, hq, if_false] at hp
      rcases List.mem_cons.mp hp with h | h
      · rw [h]; exact hm q (List.mem_cons_self _ _)
      · exact ih (fun p hp => hm p (List.mem_cons_of_mem _ hp)) h

theorem jSet_forall {β : Type} {P : Key → β → Prop} {m : JMap β} {k : Key} {v : β}
    (hm : ∀ p ∈ m, P p.1 p.2) (hv : P k v) : ∀ p ∈ jSet m k v, P p.1 p.2 := by
  induction m with
  | nil => intro p hp; simp [jSet] at hp; rw [hp]; exact hv
  | cons q m ih =>
    intro p hp
    by_cases hq : q.1 = k
    · simp only [jSet, hq, if_true] at hp
      rcases List.mem_cons.mp hp with h | h
      · rw [h]; exact hv
      · exact hm p (List.mem_cons_of_mem _ h)
    · simp only [jSet, hq, if_false] at hp
      rcases List.mem_cons.mp hp with h | h
      · rw [h]; exact hm q (List.mem_cons_self _ _)
      · exact ih (fun p hp => hm p (List.mem_cons_of_mem _ hp)) p h

theorem faceAt_eq_of_get {m : JMap Cell} {k : Key} {c : Cell} (h : jGet? m k = some c)
    (f : Nat) : faceAt m k f = c.faceOptions.getD f [] := by
  simp [faceAt, h]

theorem faceAt_of_not_mem {m : JMap Cell} {k : Key} (h : k ∉ jKeys m) (f : Nat) :
    faceAt m k f = [] := by
  simp [faceAt, jGet?_eq_none h]

/-! ## The repair pass as a fold over atomic face operations -/

/-- The repair pass decomposed into atomic (cell, face) operations. -/
def opsFold (ops : List (Key × Nat)) (m : JMap Cell) : JMap Cell :=
  ops.foldl (fun m p => faceStep m p.1 p.2) m

/-- All atomic operations of a visitation order, in execution order. -/
def orderOps (o : List Key) : List (Key × Nat) :=
  o.flatMap (fun k => HORIZONTAL_FACES.map (fun f => (k, f)))

theorem opsFold_append (ops₁ ops₂ : List (Key × Nat)) (m : JMap Cell) :
    opsFold (ops₁ ++ ops₂) m = opsFold ops₂ (opsFold ops₁ m) := by
  simp [opsFold, List.foldl_append]

theorem repairWithOrder_eq_opsFold (o : List Key) (m : JMap Cell) :
    repairWithOrder o m = opsFold (orderOps o) m := by
  induction o generalizing m with
  | nil => rfl
  | cons k o ih =>
    show (o.foldl repairStep (repairStep m k)) = _
    rw [orderOps, List.flatMap_cons, opsFold, List.foldl_append]
    have h1 : repairStep m k = (HORIZONTAL_FACES.map (fun f => (k, f))).foldl
        (fun m p => faceStep m p.1 p.2) m := by
      simp [repairStep, List.foldl_map]
    rw [← h1]
    exact ih (repairStep m k)

/-- Either `faceStep` is the identity because one of its conditions
fails, or all three conditions hold and it performs the single
overwrite. -/
theorem faceStep_split {m : JMap Cell} (hcoh : Coh m) {f : Nat}
    (hf : f ∈ HORIZONTAL_FACES) (k : Key) :
    (faceStep m k f = m ∧
      (jGet? m k = none ∨ jGet? m (adjK k f) = none ∨ ¬ openS (faceAt m k f))) ∨
    (∃ c nb, jGet? m k = some c ∧ jGet? m (adjK k f) = some nb ∧ openS (faceAt m k f) ∧
      faceStep m k f = jSet m (adjK k f)
        { nb with faceOptions := nb.faceOptions.set (oppositeFace f) (c.faceOptions.getD f []) }) := by
  cases hc : jGet? m k with
  | none => left; exact ⟨by simp [faceStep, hc], Or.inl rfl⟩
  | some c =>
    have hpos := coh_get hcoh hc
    have hnk : ((c.position.1 + faceDX f, c.position.2.2 + faceDZ f) : Key) = adjK k f := by
      rw [hpos]; rfl
    cases hnb : jGet? m (adjK k f) with
    | none =>
      left
      constructor
      · simp only [faceStep, hc, hnk, hnb]
      · exact Or.inr (Or.inl rfl)
    | some nb =>
      by_cases hopen : (c.faceOptions.getD f []).length = 1 ∧
          (c.faceOptions.getD f []).getD 0 0 ∈ OPEN_IDS
      · right
        refine ⟨c, nb, rfl, rfl, ?_, ?_⟩
        · rw [faceAt_eq_of_get hc]; exact hopen
        · simp only [faceStep, hc, hnk, hnb]
          rw [if_pos hopen]
      · left
        constructor
        · simp only [faceStep, hc, hnk, hnb, if_neg hopen]
        · refine Or.inr (Or.inr ?_)
          rw [faceAt_eq_of_get hc]
          exact hopen

theorem jKeys_faceStep {m : JMap Cell} (hcoh : Coh m) {f : Nat}
    (hf : f ∈ HORIZONTAL_FACES) (k : Key) : jKeys (faceStep m k f) = jKeys m := by
  rcases faceStep_split hcoh hf k with ⟨h, _⟩ | ⟨c, nb, hc, hnb, ho, h⟩
  · rw [h]
  · rw [h]; exact jKeys_jSet_mem _ (jGet?_mem hnb)

theorem coh_faceStep {m : JMap Cell} (hcoh : Coh m) {f : Nat}
    (hf : f ∈ HORIZONTAL_FACES) (k : Key) : Coh (faceStep m k f) := by
  rcases faceStep_split hcoh hf k with ⟨h, _⟩ | ⟨c, nb, hc, hnb, ho, h⟩
  · rw [h]; exact hcoh
  · rw [h]
    have hpos := coh_get hcoh hnb
    exact coh_jSet hcoh hpos

theorem shape_faceStep {m : JMap Cell} (hcoh : Coh m) (hsh : Shape6 m) {f : Nat}
    (hf : f ∈ HORIZONTAL_FACES) (k : Key) : Shape6 (faceStep m k f) := by
  rcases faceStep_split hcoh hf k with ⟨h, _⟩ | ⟨c, nb, hc, hnb, ho, h⟩
  · rw [h]; exact hsh
  · rw [h]
    refine shape_jSet hsh ?_
    show (nb.faceOptions.set (oppositeFace f) _).length = 6
    rw [List.length_set]
    exact shape_get hsh hnb

theorem faceAt_jSet_self (m : JMap Cell) (nk : Key) (cnew : Cell) (g : Nat) :
    faceAt (jSet m nk cnew) nk g = cnew.faceOptions.getD g [] := by
  simp [faceAt, jGet?_jSet_self]

theorem faceAt_jSet_other (m : JMap Cell) {x nk : Key} (cnew : Cell) (g : Nat)
    (hx : x ≠ nk) : faceAt (jSet m nk cnew) x g = faceAt m x g := by
  simp [faceAt, jGet?_jSet_ne _ _ hx]

/-! ## Symmetry of the repair pass (claims C1 and C9) -/

/-- The symmetry invariant at one cell-face: if this side is resolved to
a single open id, the neighboring cell's opposite face holds the very
same list. -/
def SymAt (m : JMap Cell) (k : Key) (f : Nat) : Prop :=
  openS (faceAt m k f) → faceAt m (adjK k f) (oppositeFace f) = faceAt m k f

/-- One `faceStep` establishes `SymAt` for its own operation and keeps it
for every previously processed distinct operation (membership of the
neighbor taken in the untouched key set). -/
theorem faceStep_sym_preserve {m : JMap Cell} (hcoh : Coh m) (hsh : Shape6 m)
    {f : Nat} (hf : f ∈ HORIZONTAL_FACES) (c : Key)
    (done : List (Key × Nat)) (hdh : ∀ op ∈ done, op.2 ∈ HORIZONTAL_FACES)
    (hni : (c, f) ∉ done)
    (hsym : ∀ op ∈ done, adjK op.1 op.2 ∈ jKeys m → SymAt m op.1 op.2) :
    ∀ op ∈ done ++ [(c, f)], adjK op.1 op.2 ∈ jKeys m →
      SymAt (faceStep m c f) op.1 op.2 := by
  rcases faceStep_split hcoh hf c with ⟨heq, hwhy⟩ | ⟨cc, nb, hc, hnb, ho, heq⟩
  · -- identity step: old operations carry over, the new one is vacuous
    intro op hop hmem
    rcases List.mem_append.mp hop with h | h
    · rw [heq]; exact hsym op h hmem
    · simp only [List.mem_singleton] at h
      subst h
      rw [heq]
      intro hopen
      rcases hwhy with hw | hw | hw
      · rw [faceAt, hw] at hopen; exact absurd hopen openS_nil
      · exact absurd (jGet?_eq_none (fun hm => by
          obtain ⟨v, hv⟩ := mem_jKeys hm
          rw [hv] at hw; exact Option.noConfusion hw) : jGet? m (adjK c f) = none)
          (by obtain ⟨v, hv⟩ := mem_jKeys hmem; rw [hw] at hv; exact Option.noConfusion hv)
      · exact absurd hopen hw
  · -- write step
    have hV : cc.faceOptions.getD f [] = faceAt m c f := (faceAt_eq_of_get hc f).symm
    have hnbl : nb.faceOptions.length = 6 := shape_get hsh hnb
    have hcne : c ≠ adjK c f := (adjK_ne hf c).symm
    -- the four facts about faces after the write
    have hAwr : faceAt (faceStep m c f) (adjK c f) (oppositeFace f) = faceAt m c f := by
      rw [heq, faceAt_jSet_self]
      show (nb.faceOptions.set (oppositeFace f) (cc.faceOptions.getD f [])).getD
          (oppositeFace f) [] = faceAt m c f
      rw [getD_set_self _ _ _ (by rw [hnbl]; exact opp_lt_6 hf)]
      exact hV
    have hAother : ∀ g, g ≠ oppositeFace f →
        faceAt (faceStep m c f) (adjK c f) g = faceAt m (adjK c f) g := by
      intro g hg
      rw [heq, faceAt_jSet_self]
      show (nb.faceOptions.set (oppositeFace f) (cc.faceOptions.getD f [])).getD g [] = _
      rw [getD_set_ne _ _ _ (fun hh => hg hh.symm)]
      rw [faceAt_eq_of_get hnb]
    have hXother : ∀ x g, x ≠ adjK c f → faceAt (faceStep m c f) x g = faceAt m x g := by
      intro x g hx
      rw [heq, faceAt_jSet_other _ _ _ hx]
    intro op hop hmem
    rcases List.mem_append.mp hop with h | h
    · -- a previously processed operation (k, g)
      obtain ⟨k, g⟩ := op
      have hg : g ∈ HORIZONTAL_FACES := hdh (k, g) h
      simp only at hmem ⊢
      by_cases hk : k = adjK c f
      · by_cases hgf : g = oppositeFace f
        · -- the reverse operation of the current edge
          subst hk; subst hgf
          intro _
          rw [hAwr]
          have hback : adjK (adjK c f) (oppositeFace f) = c := adjK_opp hf c
          rw [hback, opp_opp hf]
          exact (hXother c f hcne).symm ▸ (hXother c f hcne)
        · -- same cell, a different face: untouched on both sides
          subst hk
          have hA := hAother g hgf
          have hBcell : adjK (adjK c f) g ≠ adjK c f := adjK_ne hg _
          have hB := hXother (adjK (adjK c f) g) (oppositeFace g) hBcell
          intro hopen
          rw [hA] at hopen
          rw [hA, hB]
          exact hsym ((adjK c f), g) h hmem hopen
      · -- a different cell
        have hA := hXother k g hk
        by_cases hbk : adjK k g = adjK c f
        · by_cases hgf : oppositeFace g = oppositeFace f
          · -- would be the identical operation, excluded by freshness
            have : g = f := opp_inj hg hf hgf
            subst this
            have : k = c := adjK_inj hbk
            subst this
            exact absurd h hni
          · have hB := hAother (oppositeFace g) hgf
            intro hopen
            rw [hA] at hopen
            rw [hA, hbk, hB, ← hbk]
            exact hsym (k, g) h hmem hopen
        · have hB := hXother (adjK k g) (oppositeFace g) hbk
          intro hopen
          rw [hA] at hopen
          rw [hA, hB]
          exact hsym (k, g) h hmem hopen
    · -- the operation just performed
      simp only [List.mem_singleton] at h
      subst h
      simp only
      intro _
      rw [hAwr, hXother c f hcne]

/-- Folding the remaining operations preserves well-formedness and
carries the symmetry facts of all processed operations to the end. -/
theorem opsFold_sym (ops : List (Key × Nat)) :
    ∀ (done : List (Key × Nat)) (m : JMap Cell), Coh m → Shape6 m →
    (∀ op ∈ ops, op.2 ∈ HORIZONTAL_FACES) →
    (∀ op ∈ done, op.2 ∈ HORIZONTAL_FACES) →
    (done ++ ops).Nodup →
    (∀ op ∈ done, adjK op.1 op.2 ∈ jKeys m → SymAt m op.1 op.2) →
    Coh (opsFold ops m) ∧ Shape6 (opsFold ops m) ∧ jKeys (opsFold ops m) = jKeys m ∧
      ∀ op ∈ done ++ ops, adjK op.1 op.2 ∈ jKeys m → SymAt (opsFold ops m) op.1 op.2 := by
  induction ops with
  | nil =>
    intro done m hcoh hsh _ _ _ hsym
    exact ⟨hcoh, hsh, rfl, by simpa using hsym⟩
  | cons op ops ih =>
    intro done m hcoh hsh hops hdh hnd hsym
    obtain ⟨c, f⟩ := op
    have hf : f ∈ HORIZONTAL_FACES := hops (c, f) (List.mem_cons_self _ _)
    have hni : (c, f) ∉ done := by
      rcases List.nodup_append.mp hnd with ⟨_, _, hdisj⟩
      intro hmem
      exact hdisj hmem (List.mem_cons_self _ _)
    have hstep := faceStep_sym_preserve hcoh hsh hf c done hdh hni hsym
    have hkeys := jKeys_faceStep hcoh hf c
    have hih := ih (done ++ [(c, f)]) (faceStep m c f)
      (coh_faceStep hcoh hf c) (shape_faceStep hcoh hsh hf c)
      (fun op hop => hops op (List.mem_cons_of_mem _ hop))
      (by
        intro op hop
        rcases List.mem_append.mp hop with h | h
        · exact hdh op h
        · simp only [List.mem_singleton] at h; rw [h]; exact hf)
      (by rw [List.append_assoc]; exact hnd)
      (fun op hop hmem => hstep op hop (hkeys ▸ hmem))
    obtain ⟨hc1, hc2, hc3, hc4⟩ := hih
    have hfold : opsFold ((c, f) :: ops) m = opsFold ops (faceStep m c f) := rfl
    refine ⟨hfold ▸ hc1, hfold ▸ hc2, ?_, ?_⟩
    · rw [hfold, hc3, hkeys]
    · intro op hop hmem
      rw [hfold]
      refine hc4 op ?_ (by rw [hkeys]; exact hmem)
      have hassoc : done ++ (c, f) :: ops = (done ++ [(c, f)]) ++ ops := by
        rw [List.append_assoc]; rfl
      rw [← hassoc]; exact hop

theorem mem_orderOps {o : List Key} {k : Key} {f : Nat} :
    (k, f) ∈ orderOps o ↔ k ∈ o ∧ f ∈ HORIZONTAL_FACES := by
  simp [orderOps, List.mem_flatMap]

theorem orderOps_horiz {o : List Key} : ∀ op ∈ orderOps o, op.2 ∈ HORIZONTAL_FACES := by
  intro op hop
  obtain ⟨k, f⟩ := op
  exact (mem_orderOps.mp hop).2

theorem orderOps_nodup {o : List Key} (h : o.Nodup) : (orderOps o).Nodup := by
  rw [orderOps, List.nodup_flatMap]
  constructor
  · intro k _
    refine List.Nodup.map ?_ (by decide)
    intro a b hab
    simpa using hab
  · refine h.imp ?_
    intro a b hab
    simp only [Function.onFun, List.Disjoint]
    intro x hxa hxb
    obtain ⟨fa, _, hfa⟩ := List.mem_map.mp hxa
    obtain ⟨fb, _, hfb⟩ := List.mem_map.mp hxb
    rw [← hfa] at hfb
    exact hab (by injection hfb with h1 _; exact h1.symm ▸ rfl)

/-- Well-formedness facts about `repairWithOrder`. -/
theorem repairWithOrder_wf (o : List Key) (m : JMap Cell) (hcoh : Coh m) (hsh : Shape6 m)
    (hnd : o.Nodup) :
    Coh (repairWithOrder o m) ∧ Shape6 (repairWithOrder o m) ∧
      jKeys (repairWithOrder o m) = jKeys m := by
  rw [repairWithOrder_eq_opsFold]
  have h := opsFold_sym (orderOps o) [] m hcoh hsh orderOps_horiz (by simp)
    (by simpa using orderOps_nodup hnd) (by simp)
  exact ⟨h.1, h.2.1, h.2.2.1⟩

/-- The repair pass makes every processed cell-face pair symmetric. -/
theorem repairWithOrder_symmetric (o : List Key) (m : JMap Cell) (hcoh : Coh m)
    (hsh : Shape6 m) (hnd : o.Nodup) :
    ∀ k f, f ∈ HORIZONTAL_FACES → k ∈ o → adjK k f ∈ jKeys m →
      SymAt (repairWithOrder o m) k f := by
  intro k f hf hk hmem
  rw [repairWithOrder_eq_opsFold]
  have h := opsFold_sym (orderOps o) [] m hcoh hsh orderOps_horiz (by simp)
    (by simpa using orderOps_nodup hnd) (by simp)
  exact h.2.2.2 (k, f) (by simpa using mem_orderOps.mpr ⟨hk, hf⟩) hmem

/-- C1 general form: after `repairPass`, whenever the neighbor across a
horizontal face is in the chunk and this side is resolved open, the
neighbor's opposite side holds the identical single-option list. -/
theorem repairPass_symmetric (m : JMap Cell) (hcoh : Coh m) (hsh : Shape6 m)
    (hnd : (jKeys m).Nodup) :
    ∀ k f, f ∈ HORIZONTAL_FACES → adjK k f ∈ jKeys m → SymAt (repairPass m) k f := by
  intro k f hf hmem
  by_cases hk : k ∈ jKeys m
  · exact repairWithOrder_symmetric (jKeys m) m hcoh hsh hnd k f hf hk hmem
  · intro hopen
    have hwf := repairWithOrder_wf (jKeys m) m hcoh hsh hnd
    have hno : k ∉ jKeys (repairPass m) := by
      rw [repairPass, hwf.2.2]; exact hk
    rw [faceAt_of_not_mem hno] at hopen
    exact absurd hopen openS_nil

/-- On a chunk already satisfying the symmetry invariant, one face
operation changes nothing. -/
theorem faceStep_fixed {m : JMap Cell} (hcoh : Coh m) (hsh : Shape6 m)
    (hsym : ∀ k f, f ∈ HORIZONTAL_FACES → adjK k f ∈ jKeys m → SymAt m k f)
    (k : Key) {f : Nat} (hf : f ∈ HORIZONTAL_FACES) : faceStep m k f = m := by
  rcases faceStep_split hcoh hf k with ⟨h, _⟩ | ⟨c, nb, hc, hnb, ho, heq⟩
  · exact h
  · have hmem : adjK k f ∈ jKeys m := jGet?_mem hnb
    have hs := hsym k f hf hmem ho
    have hnbface : nb.faceOptions.getD (oppositeFace f) [] = c.faceOptions.getD f [] := by
      rw [← faceAt_eq_of_get hnb, ← faceAt_eq_of_get hc]
      exact hs
    have hset : nb.faceOptions.set (oppositeFace f) (c.faceOptions.getD f []) =
        nb.faceOptions :=
      set_getD_self (by rw [shape_get hsh hnb]; exact opp_lt_6 hf) hnbface
    rw [heq, hset]
    have hnb' : jGet? m (adjK k f) =
        some { nb with faceOptions := nb.faceOptions } := hnb
    exact jSet_self hnb'

/-- On a chunk already satisfying the symmetry invariant, the repair
pass is the identity whatever visitation order is used. -/
theorem repairWithOrder_fixed {m : JMap Cell} (hcoh : Coh m) (hsh : Shape6 m)
    (hsym : ∀ k f, f ∈ HORIZONTAL_FACES → adjK k f ∈ jKeys m → SymAt m k f)
    (o : List Key) : repairWithOrder o m = m := by
  have hstep : ∀ k, repairStep m k = m := by
    intro k
    show List.foldl (fun m f => faceStep m k f) m HORIZONTAL_FACES = m
    have h0 := faceStep_fixed hcoh hsh hsym k (f := 0) (by decide)
    have h1 := faceStep_fixed hcoh hsh hsym k (f := 1) (by decide)
    have h4 := faceStep_fixed hcoh hsh hsym k (f := 4) (by decide)
    have h5 := faceStep_fixed hcoh hsh hsym k (f := 5) (by decide)
    show faceStep (faceStep (faceStep (faceStep m k 0) k 1) k 4) k 5 = m
    rw [h0, h1, h4, h5]
  induction o with
  | nil => rfl
  | cons k o ih =>
    show repairWithOrder o (repairStep m k) = m
    rw [hstep k]
    exact ih

/-- C9 general form: the repaired chunk is a fixed point of the pass. -/
theorem repairPass_idempotent (m : JMap Cell) (hcoh : Coh m) (hsh : Shape6 m)
    (hnd : (jKeys m).Nodup) : repairPass (repairPass m) = repairPass m := by
  obtain ⟨hcoh', hsh', hkeys'⟩ := repairWithOrder_wf (jKeys m) m hcoh hsh hnd
  have hsym' : ∀ k f, f ∈ HORIZONTAL_FACES → adjK k f ∈ jKeys (repairPass m) →
      SymAt (repairPass m) k f := by
    intro k f hf hmem
    rw [repairPass, hkeys'] at hmem
    exact repairPass_symmetric m hcoh hsh hnd k f hf hmem
  exact repairWithOrder_fixed hcoh' hsh' hsym' _

/-! ## Generation invariants -/

theorem getD_mem {l : List Nat} {i : Nat} (h : i < l.length) : l.getD i 0 ∈ l := by
  rw [List.getD_eq_getElem _ _ h]
  exact List.getElem_mem h

theorem nodup_concat {α : Type} {l : List α} {a : α} (h : l.Nodup) (ha : a ∉ l) :
    (l ++ [a]).Nodup := by
  rw [List.nodup_append]
  exact ⟨h, List.nodup_singleton a, by
    intro x hx hx'
    rw [List.mem_singleton] at hx'
    exact ha (hx' ▸ hx)⟩

theorem head?_concat {α : Type} {l : List α} {a b : α} (h : l.head? = some a) :
    (l ++ [b]).head? = some a := by
  rw [List.head?_append, h]
  rfl

theorem jGet?_jSet_cases {β : Type} {m : JMap β} {k0 k : Key} {v c : β}
    (h : jGet? (jSet m k0 v) k = some c) :
    (k = k0 ∧ c = v) ∨ jGet? m k = some c := by
  by_cases hk : k = k0
  · subst hk
    rw [jGet?_jSet_self] at h
    exact Or.inl ⟨rfl, (Option.some.injEq _ _ ▸ h).symm⟩
  · right
    rw [jGet?_jSet_ne _ _ hk] at h
    exact h

theorem mem_domainKeys {halfX halfZ : Nat} {k : Key} :
    k ∈ domainKeys halfX halfZ ↔ inBounds halfX halfZ k.1 k.2 = true := by
  obtain ⟨a, b⟩ := k
  simp only [domainKeys, List.mem_flatMap, List.mem_map, List.mem_range, inBounds,
    decide_eq_true_eq, Prod.mk.injEq]
  constructor
  · rintro ⟨i, hi, j, hj, ha, hb⟩
    omega
  · rintro ⟨h1, h2, h3, h4⟩
    refine ⟨(a + halfX).toNat, by omega, (b + halfZ).toNat, by omega, by omega, by omega⟩

theorem domainKeys_nodup (halfX halfZ : Nat) : (domainKeys halfX halfZ).Nodup := by
  rw [domainKeys, List.nodup_flatMap]
  constructor
  · intro i _
    refine List.Nodup.map ?_ (List.nodup_range _)
    intro a b hab
    simp only [Prod.mk.injEq] at hab
    omega
  · refine (List.pairwise_lt_range _).imp ?_
    intro a b hab
    simp only [Function.onFun, List.Disjoint]
    intro x hxa hxb
    obtain ⟨ja, _, hja⟩ := List.mem_map.mp hxa
    obtain ⟨jb, _, hjb⟩ := List.mem_map.mp hxb
    rw [← hja] at hjb
    simp only [Prod.mk.injEq] at hjb
    omega

theorem jSet_append_of_not_mem {β : Type} {m : JMap β} {k : Key} (v : β)
    (h : k ∉ jKeys m) : jSet m k v = m ++ [(k, v)] := by
  induction m with
  | nil => rfl
  | cons p m ih =>
    rw [jKeys_cons] at h
    have hp : p.1 ≠ k := fun hh => h (hh ▸ List.mem_cons_self _ _)
    have h' : k ∉ jKeys m := fun hh => h (List.mem_cons_of_mem _ hh)
    simp [jSet, hp, ih h']

/-- The Phase-1 grid fold is literally the association list of
`createGridCell` values over the (duplicate-free) domain keys. -/
theorem gridFold_eq (ks : List Key) (hnd : ks.Nodup) (acc : JMap Cell)
    (hdisj : ∀ k ∈ ks, k ∉ jKeys acc) :
    ks.foldl (fun m k => jSet m k (createGridCell k.1 k.2)) acc =
      acc ++ ks.map (fun k => (k, createGridCell k.1 k.2)) := by
  induction ks generalizing acc with
  | nil => simp
  | cons k0 ks ih =>
    have hk0 : k0 ∉ jKeys acc := hdisj k0 (List.mem_cons_self _ _)
    have hstep : jSet acc k0 (createGridCell k0.1 k0.2) =
        acc ++ [(k0, createGridCell k0.1 k0.2)] := jSet_append_of_not_mem _ hk0
    show List.foldl _ (jSet acc k0 (createGridCell k0.1 k0.2)) ks = _
    rw [hstep, ih (List.nodup_cons.mp hnd).2]
    · simp
    · intro k hk
      rw [jKeys]
      simp only [List.map_append, List.mem_append]
      rintro (hmem | hmem)
      · exact hdisj k (List.mem_cons_of_mem _ hk) hmem
      · simp only [List.map_cons, List.map_nil, List.mem_singleton] at hmem
        exact (List.nodup_cons.mp hnd).1 (hmem ▸ hk)

/-- Face reads after a `setCellFace`. -/
theorem faceAt_setCellFace {m : JMap Cell} (hsh : Shape6 m) {k : Key} {f : Nat}
    (hf6 : f < 6) (o : List Nat) (k' : Key) (f' : Nat) :
    faceAt (setCellFace m k f o) k' f' =
      if k' = k ∧ f' = f ∧ k ∈ jKeys m then o else faceAt m k' f' := by
  cases hc : jGet? m k with
  | none =>
    have hnk : k ∉ jKeys m := fun hm => by
      obtain ⟨v, hv⟩ := mem_jKeys hm
      rw [hv] at hc; exact Option.noConfusion hc
    rw [show setCellFace m k f o = m by simp [setCellFace, hc]]
    simp [hnk]
  | some c =>
    have hmem : k ∈ jKeys m := jGet?_mem hc
    have hlen : c.faceOptions.length = 6 := shape_get hsh hc
    have hset : setCellFace m k f o = jSet m k { c with faceOptions := c.faceOptions.set f o } := by
      simp [setCellFace, hc]
    rw [hset]
    by_cases hk' : k' = k
    · subst hk'
      rw [faceAt_jSet_self]
      by_cases hf' : f' = f
      · subst hf'
        simp only [hmem, and_true, true_and, if_pos rfl]
        exact getD_set_self _ _ _ (hlen ▸ hf6)
      · simp only [hf', false_and, and_false, if_false]
        show (c.faceOptions.set f o).getD f' [] = faceAt m k' f'
        rw [getD_set_ne _ _ _ (fun hh => hf' hh.symm), faceAt_eq_of_get hc]
    · rw [faceAt_jSet_other _ _ _ hk']
      simp [hk']

/-- Elements of a Fisher-Yates shuffle come from the input list. -/
theorem shuffleAux_mem (g : Nat → Nat) :
    ∀ (i : Nat) (a : List Nat) (n : Nat), i < a.length →
      ∀ x ∈ (shuffleAux g i a n).1, x ∈ a := by
  intro i
  induction i with
  | zero => intro a n _ x hx; exact hx
  | succ i ih =>
    intro a n hi x hx
    have hjlt : rand g n (i + 2) < a.length := by
      have := Nat.mod_lt (g n) (y := i + 2) (by omega)
      simp only [rand]
      omega
    have hai : a.getD (i + 1) 0 ∈ a := getD_mem hi
    have haj : a.getD (rand g n (i + 2)) 0 ∈ a := getD_mem hjlt
    have hlen : ((a.set (i + 1) (a.getD (rand g n (i + 2)) 0)).set (rand g n (i + 2))
        (a.getD (i + 1) 0)).length = a.length := by
      rw [List.length_set, List.length_set]
    have hx' := ih _ (n + 1) (by rw [hlen]; omega) x hx
    rcases List.mem_or_eq_of_mem_set hx' with hx'' | hx''
    · rcases List.mem_or_eq_of_mem_set hx'' with h3 | h3
      · exact h3
      · exact h3 ▸ haj
    · exact hx'' ▸ hai

theorem shuffle_mem {g : Nat → Nat} {a : List Nat} {n : Nat} :
    ∀ x ∈ (shuffle g a n).1, x ∈ a := by
  intro x hx
  cases a with
  | nil => exact hx
  | cons y ys =>
    exact shuffleAux_mem g _ _ n (by simp [Nat.lt_succ_iff]) x hx

/-- Well-formedness of the grid cells during growth: six face lists,
inert empty vertical faces, all-active face states, and horizontal faces
always the full wall or the full open candidate list. -/
def CellsWf (m : JMap Cell) : Prop :=
  ∀ p ∈ m, p.2.faceOptions.length = 6 ∧
    p.2.faceOptions.getD 2 [] = [] ∧ p.2.faceOptions.getD 3 [] = [] ∧
    p.2.faceStates = 63 ∧
    ∀ f ∈ HORIZONTAL_FACES, p.2.faceOptions.getD f [] = WALL_IDS ∨
      p.2.faceOptions.getD f [] = OPEN_IDS

instance (m : JMap Cell) : Decidable (CellsWf m) := by unfold CellsWf; infer_instance

theorem cellsWf_shape6 {m : JMap Cell} (h : CellsWf m) : Shape6 m :=
  fun p hp => (h p hp).1

theorem cellsWf_get {m : JMap Cell} (h : CellsWf m) {k : Key} {c : Cell}
    (hc : jGet? m k = some c) :
    c.faceOptions.length = 6 ∧
    c.faceOptions.getD 2 [] = [] ∧ c.faceOptions.getD 3 [] = [] ∧
    c.faceStates = 63 ∧
    ∀ f ∈ HORIZONTAL_FACES, c.faceOptions.getD f [] = WALL_IDS ∨
      c.faceOptions.getD f [] = OPEN_IDS :=
  h (k, c) (jGet?_entry_mem hc)

theorem cellsWf_setCellFace {m : JMap Cell} (hwf : CellsWf m) {k : Key} {f : Nat}
    (hf : f ∈ HORIZONTAL_FACES)
    {o : List Nat} (ho : o = WALL_IDS ∨ o = OPEN_IDS) :
    CellsWf (setCellFace m k f o) := by
  cases hc : jGet? m k with
  | none => rw [show setCellFace m k f o = m by simp [setCellFace, hc]]; exact hwf
  | some c =>
    rw [show setCellFace m k f o =
      jSet m k { c with faceOptions := c.faceOptions.set f o } by simp [setCellFace, hc]]
    obtain ⟨hlen, h2, h3, hst, hhor⟩ := cellsWf_get hwf hc
    have hf6 : f < 6 := horiz_lt_6 hf
    have hnew : ({ c with faceOptions := c.faceOptions.set f o } : Cell).faceOptions.length = 6 ∧
        ({ c with faceOptions := c.faceOptions.set f o } : Cell).faceOptions.getD 2 [] = [] ∧
        ({ c with faceOptions := c.faceOptions.set f o } : Cell).faceOptions.getD 3 [] = [] ∧
        ({ c with faceOptions := c.faceOptions.set f o } : Cell).faceStates = 63 ∧
        ∀ f' ∈ HORIZONTAL_FACES,
          ({ c with faceOptions := c.faceOptions.set f o } : Cell).faceOptions.getD f' [] = WALL_IDS ∨
          ({ c with faceOptions := c.faceOptions.set f o } : Cell).faceOptions.getD f' [] = OPEN_IDS := by
      refine ⟨by simp [List.length_set, hlen], ?_, ?_, hst, ?_⟩
      · show (c.faceOptions.set f o).getD 2 [] = []
        rw [getD_set_ne _ _ _ (by rcases horiz_cases hf with rfl | rfl | rfl | rfl <;> omega)]
        exact h2
      · show (c.faceOptions.set f o).getD 3 [] = []
        rw [getD_set_ne _ _ _ (by rcases horiz_cases hf with rfl | rfl | rfl | rfl <;> omega)]
        exact h3
      · intro f' hf'
        show (c.faceOptions.set f o).getD f' [] = WALL_IDS ∨
          (c.faceOptions.set f o).getD f' [] = OPEN_IDS
        by_cases hff : f' = f
        · subst hff
          rw [getD_set_self _ _ _ (hlen ▸ hf6)]
          exact ho
        · rw [getD_set_ne _ _ _ (fun hh => hff hh.symm)]
          exact hhor f' hf'
    exact jSet_forall (P := fun (_ : Key) (c : Cell) => c.faceOptions.length = 6 ∧
      c.faceOptions.getD 2 [] = [] ∧ c.faceOptions.getD 3 [] = [] ∧
      c.faceStates = 63 ∧
      ∀ f ∈ HORIZONTAL_FACES, c.faceOptions.getD f [] = WALL_IDS ∨
        c.faceOptions.getD f [] = OPEN_IDS) hwf hnew

theorem coh_setCellFace {m : JMap Cell} (hcoh : Coh m) (k : Key) (f : Nat) (o : List Nat) :
    Coh (setCellFace m k f o) := by
  cases hc : jGet? m k with
  | none => rw [show setCellFace m k f o = m by simp [setCellFace, hc]]; exact hcoh
  | some c =>
    rw [show setCellFace m k f o =
      jSet m k { c with faceOptions := c.faceOptions.set f o } by simp [setCellFace, hc]]
    have hpos := coh_get hcoh hc
    exact coh_jSet hcoh hpos

/-- Reachability through carved edges is monotone in the collapsed set
and in the set of faces forced open. -/
theorem carvedIn_mono {grid grid' : JMap Cell} {C C' : List Key}
    (hsub : ∀ k ∈ C, k ∈ C')
    (hfaces : ∀ k g, faceAt grid k g = OPEN_IDS → faceAt grid' k g = OPEN_IDS) :
    ∀ a b, carvedIn grid C a b → carvedIn grid' C' a b := by
  rintro a b ⟨ha, hb, f, hf, hadj, hopa, hopb⟩
  exact ⟨hsub a ha, hsub b hb, f, hf, hadj, hfaces a f hopa, hfaces _ _ hopb⟩

theorem reach_mono {grid grid' : JMap Cell} {C C' : List Key}
    (hsub : ∀ k ∈ C, k ∈ C')
    (hfaces : ∀ k g, faceAt grid k g = OPEN_IDS → faceAt grid' k g = OPEN_IDS)
    {a b : Key} (h : Relation.ReflTransGen (carvedIn grid C) a b) :
    Relation.ReflTransGen (carvedIn grid' C') a b :=
  Relation.ReflTransGen.mono (carvedIn_mono hsub hfaces) h

/-- The double `setCellFace` of one carve: characterization of faces. -/
theorem carve_faces {grid : JMap Cell} (hwf : CellsWf grid) {srcKey : Key} {f : Nat}
    (hf : f ∈ HORIZONTAL_FACES) (hsrc : srcKey ∈ jKeys grid)
    (hnmem : adjK srcKey f ∈ jKeys grid) :
    (∀ x g, faceAt grid x g = OPEN_IDS →
      faceAt (setCellFace (setCellFace grid srcKey f OPEN_IDS)
        (adjK srcKey f) (oppositeFace f) OPEN_IDS) x g = OPEN_IDS) ∧
    faceAt (setCellFace (setCellFace grid srcKey f OPEN_IDS)
        (adjK srcKey f) (oppositeFace f) OPEN_IDS) srcKey f = OPEN_IDS ∧
    faceAt (setCellFace (setCellFace grid srcKey f OPEN_IDS)
        (adjK srcKey f) (oppositeFace f) OPEN_IDS) (adjK srcKey f) (oppositeFace f) = OPEN_IDS := by
  have hsh : Shape6 grid := cellsWf_shape6 hwf
  have hsh1 : Shape6 (setCellFace grid srcKey f OPEN_IDS) :=
    cellsWf_shape6 (cellsWf_setCellFace hwf hf (Or.inr rfl))
  have hk1 : jKeys (setCellFace grid srcKey f OPEN_IDS) = jKeys grid :=
    jKeys_setCellFace _ _ _ _
  have hchar1 := fun k' f' => faceAt_setCellFace hsh (horiz_lt_6 hf) OPEN_IDS k' f'
    (k := srcKey) (f := f)
  have hchar2 := fun k' f' => faceAt_setCellFace hsh1 (opp_lt_6 hf) OPEN_IDS k' f'
    (k := adjK srcKey f) (f := oppositeFace f)
  refine ⟨?_, ?_, ?_⟩
  · intro x g hop
    rw [hchar2]
    by_cases h2 : x = adjK srcKey f ∧ g = oppositeFace f ∧ adjK srcKey f ∈
        jKeys (setCellFace grid srcKey f OPEN_IDS)
    · rw [if_pos h2]
    · rw [if_neg h2, hchar1]
      by_cases h1 : x = srcKey ∧ g = f ∧ srcKey ∈ jKeys grid
      · rw [if_pos h1]
      · rw [if_neg h1]; exact hop
  · rw [hchar2, if_neg, hchar1, if_pos ⟨rfl, rfl, hsrc⟩]
    rintro ⟨h1, -⟩
    exact adjK_ne hf srcKey h1.symm
  · rw [hchar2, if_pos ⟨rfl, rfl, hk1 ▸ hnmem⟩]

/-- Members of the extra-edge push list. -/
theorem pushExtras_mem {halfX halfZ : Nat} {collapsed : List Key} {nx nz : Int}
    {faces : List Nat} {cnt : Nat} {q : QItem}
    (hq : q ∈ pushExtras halfX halfZ collapsed nx nz faces cnt) :
    ∃ f' ∈ faces, q = ⟨nx, nz, f', nx + faceDX f', nz + faceDZ f'⟩ ∧
      inBounds halfX halfZ (nx + faceDX f') (nz + faceDZ f') = true ∧
      ((nx + faceDX f', nz + faceDZ f') : Key) ∉ collapsed := by
  obtain ⟨i, _, hF⟩ := List.mem_filterMap.mp hq
  cases hgi : faces.get? i with
  | none => rw [hgi] at hF; exact absurd hF (by simp)
  | some f' =>
    rw [hgi] at hF
    simp only at hF
    by_cases hcond : inBounds halfX halfZ (nx + faceDX f') (nz + faceDZ f') &&
        decide (((nx + faceDX f', nz + faceDZ f') : Key) ∉ collapsed)
    · rw [if_pos hcond] at hF
      obtain ⟨hb, hnm⟩ := Bool.and_eq_true_iff.mp hcond
      refine ⟨f', List.get?_mem hgi, ?_, hb, of_decide_eq_true hnm⟩
      exact (Option.some.injEq _ _ ▸ hF).symm
    · rw [if_neg hcond] at hF
      exact absurd hF (by simp)

/-- The invariant carried through Phases 2 and 2b of `generateCascade`. -/
structure GInv (halfX halfZ target : Nat) (s : GenState) : Prop where
  keys_eq : jKeys s.gridCells = domainKeys halfX halfZ
  coh : Coh s.gridCells
  wf : CellsWf s.gridCells
  ord_keys : s.collapseOrder.map (fun q => q.1) = s.collapsed
  nodup : s.collapsed.Nodup
  head0 : s.collapsed.head? = some ((0 : Int), (0 : Int))
  coll_mem : ∀ k ∈ s.collapsed, k ∈ jKeys s.gridCells
  size_le : s.collapsed.length ≤ max 1 target
  queue_inv : ∀ it ∈ s.queue, ((it.qx, it.qz) : Key) ∈ s.collapsed ∧
    it.qface ∈ HORIZONTAL_FACES ∧ ((it.qnx, it.qnz) : Key) = adjK (it.qx, it.qz) it.qface ∧
    inBounds halfX halfZ it.qnx it.qnz = true
  reach : ∀ k ∈ s.collapsed, Relation.ReflTransGen (carvedIn s.gridCells s.collapsed)
    ((0 : Int), (0 : Int)) k

/-- The state effect of one carve shared by Phase 2 and the fill pass:
all invariant components except the queue. -/
theorem carve_core {halfX halfZ target : Nat} {grid : JMap Cell} {collapsed : List Key}
    {order : List (Key × Int)} (srcKey : Key) {f : Nat} (hf : f ∈ HORIZONTAL_FACES)
    (hkeys : jKeys grid = domainKeys halfX halfZ) (hcoh : Coh grid) (hwf : CellsWf grid)
    (hordk : order.map (fun q => q.1) = collapsed)
    (hnodup : collapsed.Nodup) (hhead : collapsed.head? = some ((0 : Int), (0 : Int)))
    (hmem : ∀ k ∈ collapsed, k ∈ jKeys grid) (hlt : collapsed.length < target)
    (hreach : ∀ k ∈ collapsed,
      Relation.ReflTransGen (carvedIn grid collapsed) ((0 : Int), (0 : Int)) k)
    (hsrc : srcKey ∈ collapsed) (hnmem : adjK srcKey f ∈ jKeys grid)
    (hnew : adjK srcKey f ∉ collapsed) :
    jKeys (setCellFace (setCellFace grid srcKey f OPEN_IDS)
        (adjK srcKey f) (oppositeFace f) OPEN_IDS) = domainKeys halfX halfZ ∧
    Coh (setCellFace (setCellFace grid srcKey f OPEN_IDS)
        (adjK srcKey f) (oppositeFace f) OPEN_IDS) ∧
    CellsWf (setCellFace (setCellFace grid srcKey f OPEN_IDS)
        (adjK srcKey f) (oppositeFace f) OPEN_IDS) ∧
    (order ++ [(adjK srcKey f, (oppositeFace f : Int))]).map (fun q => q.1) =
      collapsed ++ [adjK srcKey f] ∧
    (collapsed ++ [adjK srcKey f]).Nodup ∧
    (collapsed ++ [adjK srcKey f]).head? = some ((0 : Int), (0 : Int)) ∧
    (∀ k ∈ collapsed ++ [adjK srcKey f], k ∈ jKeys (setCellFace (setCellFace grid srcKey f
        OPEN_IDS) (adjK srcKey f) (oppositeFace f) OPEN_IDS)) ∧
    (collapsed ++ [adjK srcKey f]).length ≤ max 1 target ∧
    (∀ k ∈ collapsed ++ [adjK srcKey f],
      Relation.ReflTransGen (carvedIn (setCellFace (setCellFace grid srcKey f OPEN_IDS)
        (adjK srcKey f) (oppositeFace f) OPEN_IDS) (collapsed ++ [adjK srcKey f]))
        ((0 : Int), (0 : Int)) k) := by
  obtain ⟨hmono, hopen1, hopen2⟩ := carve_faces hwf hf (hmem srcKey hsrc) hnmem
  have hkeys1 : jKeys (setCellFace grid srcKey f OPEN_IDS) = jKeys grid :=
    jKeys_setCellFace _ _ _ _
  have hkeys2 : jKeys (setCellFace (setCellFace grid srcKey f OPEN_IDS)
      (adjK srcKey f) (oppositeFace f) OPEN_IDS) = jKeys grid := by
    rw [jKeys_setCellFace, hkeys1]
  have hsub : ∀ k ∈ collapsed, k ∈ collapsed ++ [adjK srcKey f] :=
    fun k hk => List.mem_append_left _ hk
  have hreach' : ∀ k ∈ collapsed,
      Relation.ReflTransGen (carvedIn (setCellFace (setCellFace grid srcKey f OPEN_IDS)
        (adjK srcKey f) (oppositeFace f) OPEN_IDS) (collapsed ++ [adjK srcKey f]))
      ((0 : Int), (0 : Int)) k :=
    fun k hk => reach_mono hsub hmono (hreach k hk)
  refine ⟨hkeys2.trans hkeys, ?_, ?_, by simp [hordk], nodup_concat hnodup hnew,
    head?_concat hhead, ?_, ?_, ?_⟩
  · exact coh_setCellFace (coh_setCellFace hcoh _ _ _) _ _ _
  · exact cellsWf_setCellFace (cellsWf_setCellFace hwf hf (Or.inr rfl))
      (opp_mem_horiz hf) (Or.inr rfl)
  · intro k hk
    rw [hkeys2]
    rcases List.mem_append.mp hk with h | h
    · exact hmem k h
    · rw [List.mem_singleton] at h
      exact h ▸ hnmem
  · rw [List.length_append, List.length_singleton]
    omega
  · intro k hk
    rcases List.mem_append.mp hk with h | h
    · exact hreach' k h
    · rw [List.mem_singleton] at h
      subst h
      refine Relation.ReflTransGen.tail (hreach' srcKey hsrc) ?_
      exact ⟨hsub srcKey hsrc, List.mem_append_right _ (List.mem_singleton.mpr rfl),
        f, hf, rfl, hopen1, hopen2⟩

/-- Phase-2 body preserves the invariant. -/
theorem phase2Body_inv {g : Nat → Nat} {halfX halfZ target : Nat} {s : GenState}
    {it : QItem} {rest : List QItem} (hq : s.queue = it :: rest)
    (hlt : s.collapsed.length < target) (hinv : GInv halfX halfZ target s) :
    GInv halfX halfZ target (phase2Body g halfX halfZ it rest s) := by
  obtain ⟨hsrcc, hface, hadj, hbnd⟩ := hinv.queue_inv it (hq ▸ List.mem_cons_self _ _)
  by_cases hcol : ((it.qnx, it.qnz) : Key) ∈ s.collapsed
  · rw [phase2Body, if_pos hcol]
    exact { hinv with
      queue_inv := fun q hq' => hinv.queue_inv q (hq ▸ List.mem_cons_of_mem _ hq') }
  · rw [phase2Body, if_neg hcol]
    simp only
    have hnmem : ((it.qnx, it.qnz) : Key) ∈ jKeys s.gridCells := by
      rw [hinv.keys_eq, mem_domainKeys]
      exact hbnd
    rw [hadj] at hnmem hcol
    obtain ⟨c1, c2, c3, c4, c5, c6, c7, c8, c9⟩ := carve_core (it.qx, it.qz) hface
      hinv.keys_eq hinv.coh hinv.wf hinv.ord_keys hinv.nodup hinv.head0 hinv.coll_mem
      hlt hinv.reach hsrcc hnmem hcol
    rw [hadj]
    refine ⟨c1, c2, c3, c4, c5, c6, c7, c8, ?_, c9⟩
    -- queue invariant for survivors and new pushes
    intro q hq'
    rcases List.mem_append.mp hq' with h | h
    · obtain ⟨ha, hb, hc, hd⟩ := hinv.queue_inv q (hq ▸ List.mem_cons_of_mem _ h)
      exact ⟨List.mem_append_left _ ha, hb, hc, hd⟩
    · obtain ⟨f', hf', hshape, hbnd', hncol⟩ := pushExtras_mem h
      have hfh : f' ∈ HORIZONTAL_FACES := by
        have hmf := shuffle_mem f' hf'
        exact (List.mem_filter.mp hmf).1
      subst hshape
      refine ⟨?_, hfh, rfl, hbnd'⟩
      rw [hadj]
      exact List.mem_append_right _ (List.mem_singleton.mpr rfl)

/-- The Phase-2 loop preserves the invariant for any fuel. -/
theorem phase2Loop_inv {g : Nat → Nat} {halfX halfZ target : Nat} :
    ∀ (fuel : Nat) (s : GenState), GInv halfX halfZ target s →
      GInv halfX halfZ target (phase2Loop g halfX halfZ target fuel s) := by
  intro fuel
  induction fuel with
  | zero => intro s hinv; exact hinv
  | succ fuel ih =>
    intro s hinv
    rw [phase2Loop]
    cases hq : s.queue with
    | nil => exact hinv
    | cons it rest =>
      show GInv halfX halfZ target
        (if s.collapsed.length < target then
          phase2Loop g halfX halfZ target fuel (phase2Body g halfX halfZ it rest s)
        else s)
      by_cases hlt : s.collapsed.length < target
      · rw [if_pos hlt]
        exact ih _ (phase2Body_inv hq hlt hinv)
      · rw [if_neg hlt]
        exact hinv

/-- One fill-pass carve preserves the invariant. -/
theorem fillCarve_inv {halfX halfZ target : Nat} {s : GenState} {key nKey : Key} {f : Nat}
    (hf : f ∈ HORIZONTAL_FACES) (hkey : key ∈ s.collapsed) (hadj : nKey = adjK key f)
    (hnmem : nKey ∈ jKeys s.gridCells) (hnew : nKey ∉ s.collapsed)
    (hlt : s.collapsed.length < target) (hinv : GInv halfX halfZ target s) :
    GInv halfX halfZ target (fillCarve key nKey f s) := by
  subst hadj
  obtain ⟨c1, c2, c3, c4, c5, c6, c7, c8, c9⟩ := carve_core key hf
    hinv.keys_eq hinv.coh hinv.wf hinv.ord_keys hinv.nodup hinv.head0 hinv.coll_mem
    hlt hinv.reach hkey hnmem hnew
  refine ⟨c1, c2, c3, c4, c5, c6, c7, c8, ?_, c9⟩
  intro q hq'
  obtain ⟨ha, hb, hc, hd⟩ := hinv.queue_inv q hq'
  exact ⟨List.mem_append_left _ ha, hb, hc, hd⟩

/-- The inner face loop of the fill pass preserves the invariant. -/
theorem fillFaces_inv {halfX halfZ target : Nat} {key : Key} :
    ∀ (fs : List Nat) (s : GenState), (∀ f' ∈ fs, f' ∈ HORIZONTAL_FACES) →
      key ∈ s.collapsed → GInv halfX halfZ target s →
      GInv halfX halfZ target (fillFaces halfX halfZ target key (key.1, key.2) fs s) := by
  intro fs
  induction fs with
  | nil => intro s _ _ hinv; exact hinv
  | cons f fs ih =>
    intro s hfs hkey hinv
    have hf : f ∈ HORIZONTAL_FACES := hfs f (List.mem_cons_self _ _)
    show GInv halfX halfZ target
      (if s.collapsed.length ≥ target then s
      else if inBounds halfX halfZ ((key.1, key.2).1 + faceDX f) ((key.1, key.2).2 + faceDZ f) &&
          decide ((((key.1, key.2).1 + faceDX f, (key.1, key.2).2 + faceDZ f) : Key) ∉ s.collapsed)
        then fillFaces halfX halfZ target key (key.1, key.2) fs
          (fillCarve key ((key.1, key.2).1 + faceDX f, (key.1, key.2).2 + faceDZ f) f s)
        else fillFaces halfX halfZ target key (key.1, key.2) fs s)
    by_cases hge : s.collapsed.length ≥ target
    · rw [if_pos hge]; exact hinv
    · rw [if_neg hge]
      by_cases hcond : inBounds halfX halfZ (key.1 + faceDX f) (key.2 + faceDZ f) &&
          decide (((key.1 + faceDX f, key.2 + faceDZ f) : Key) ∉ s.collapsed)
      · rw [if_pos hcond]
        obtain ⟨hbnd, hnm⟩ := Bool.and_eq_true_iff.mp hcond
        have hnmem : ((key.1 + faceDX f, key.2 + faceDZ f) : Key) ∈ jKeys s.gridCells := by
          rw [hinv.keys_eq, mem_domainKeys]
          exact hbnd
        have hinv' := fillCarve_inv hf hkey (rfl : ((key.1 + faceDX f, key.2 + faceDZ f) : Key)
            = adjK key f) hnmem (of_decide_eq_true hnm) (by omega) hinv
        exact ih _ (fun f' hf' => hfs f' (List.mem_cons_of_mem _ hf'))
          (List.mem_append_left _ hkey) hinv'
      · rw [if_neg hcond]
        exact ih _ (fun f' hf' => hfs f' (List.mem_cons_of_mem _ hf')) hkey hinv

/-- Visiting one connected cell during the fill pass preserves the
invariant. -/
theorem fillCellStep_inv {g : Nat → Nat} {halfX halfZ target : Nat} {k : Key} {s : GenState}
    (hk : k ∈ s.collapsed) (hinv : GInv halfX halfZ target s) :
    GInv halfX halfZ target (fillCellStep g halfX halfZ target k s) := by
  rw [fillCellStep]
  cases hc : jGet? s.gridCells k with
  | none => exact hinv
  | some cell =>
    have hpos := coh_get hinv.coh hc
    have hpos' : ((cell.position.1, cell.position.2.2) : Int × Int) = (k.1, k.2) := by
      rw [hpos]
    simp only [hpos']
    have hinv' : GInv halfX halfZ target
        { s with rn := (shuffle g HORIZONTAL_FACES s.rn).2 } :=
      ⟨hinv.keys_eq, hinv.coh, hinv.wf, hinv.ord_keys, hinv.nodup, hinv.head0,
        hinv.coll_mem, hinv.size_le, hinv.queue_inv, hinv.reach⟩
    exact fillFaces_inv _ _ (fun f' hf' => shuffle_mem f' hf') hk hinv'

/-- The fill loop preserves the invariant. -/
theorem fillLoop_inv {g : Nat → Nat} {halfX halfZ target : Nat} :
    ∀ (ks : List Key) (s : GenState), GInv halfX halfZ target s →
      GInv halfX halfZ target (fillLoop g halfX halfZ target ks s) := by
  intro ks
  induction ks with
  | nil => intro s hinv; exact hinv
  | cons k ks ih =>
    intro s hinv
    show GInv halfX halfZ target
      (if decide (k ∉ s.collapsed) then fillLoop g halfX halfZ target ks s
      else if s.collapsed.length ≥ target then s
      else fillLoop g halfX halfZ target ks (fillCellStep g halfX halfZ target k s))
    by_cases hk : k ∉ s.collapsed
    · rw [if_pos (by simpa using hk)]
      exact ih s hinv
    · rw [if_neg (by simpa using hk)]
      by_cases hge : s.collapsed.length ≥ target
      · rw [if_pos hge]; exact hinv
      · rw [if_neg hge]
        exact ih _ (fillCellStep_inv (not_not.mp hk) hinv)

/-- Members of the center push list. -/
theorem centerQueue_mem {halfX halfZ : Nat} {collapsed : List Key} {faces : List Nat}
    {q : QItem} (hq : q ∈ centerQueue halfX halfZ collapsed faces) :
    ∃ f ∈ faces, q = ⟨0, 0, f, faceDX f, faceDZ f⟩ ∧
      inBounds halfX halfZ (faceDX f) (faceDZ f) = true := by
  obtain ⟨f, hf, hF⟩ := List.mem_filterMap.mp hq
  simp only at hF
  by_cases hcond : inBounds halfX halfZ (faceDX f) (faceDZ f) &&
      decide (((faceDX f, faceDZ f) : Key) ∉ collapsed)
  · rw [if_pos hcond] at hF
    obtain ⟨hb, -⟩ := Bool.and_eq_true_iff.mp hcond
    exact ⟨f, hf, (Option.some.injEq _ _ ▸ hF).symm, hb⟩
  · rw [if_neg hcond] at hF
    exact absurd hF (by simp)

/-- The seeded initial state satisfies the invariant. -/
theorem initState_inv (gridX gridZ target : Nat) (g : Nat → Nat) :
    GInv (gridX / 2) (gridZ / 2) target (initState gridX gridZ g) := by
  have hgrid : (domainKeys (gridX / 2) (gridZ / 2)).foldl
      (fun m k => jSet m k (createGridCell k.1 k.2)) [] =
      (domainKeys (gridX / 2) (gridZ / 2)).map (fun k => (k, createGridCell k.1 k.2)) := by
    rw [gridFold_eq _ (domainKeys_nodup _ _) [] (fun k _ hk => by simp [jKeys_nil] at hk)]
    simp
  have hkeys : jKeys ((domainKeys (gridX / 2) (gridZ / 2)).map
      (fun k => (k, createGridCell k.1 k.2))) = domainKeys (gridX / 2) (gridZ / 2) := by
    rw [jKeys, List.map_map]
    exact List.map_id _
  have hmemgrid : ∀ p ∈ (domainKeys (gridX / 2) (gridZ / 2)).map
      (fun k => (k, createGridCell k.1 k.2)), p.2 = createGridCell p.1.1 p.1.2 := by
    intro p hp
    obtain ⟨k, _, hk⟩ := List.mem_map.mp hp
    rw [← hk]
  have hcenter : (((0 : Int), (0 : Int)) : Key) ∈ domainKeys (gridX / 2) (gridZ / 2) := by
    rw [mem_domainKeys, inBounds, decide_eq_true_eq]
    refine ⟨by omega, by omega, by omega, by omega⟩
  refine ⟨?_, ?_, ?_, rfl, List.nodup_singleton _, rfl, ?_, ?_, ?_, ?_⟩
  · show jKeys ((domainKeys (gridX / 2) (gridZ / 2)).foldl
      (fun m k => jSet m k (createGridCell k.1 k.2)) []) = _
    rw [hgrid, hkeys]
  · show Coh ((domainKeys (gridX / 2) (gridZ / 2)).foldl
      (fun m k => jSet m k (createGridCell k.1 k.2)) [])
    rw [hgrid]
    intro p hp
    rw [hmemgrid p hp]
    rfl
  · show CellsWf ((domainKeys (gridX / 2) (gridZ / 2)).foldl
      (fun m k => jSet m k (createGridCell k.1 k.2)) [])
    rw [hgrid]
    intro p hp
    rw [hmemgrid p hp]
    refine ⟨rfl, rfl, rfl, rfl, ?_⟩
    intro f hf
    rcases horiz_cases hf with rfl | rfl | rfl | rfl <;> exact Or.inl rfl
  · intro k hk
    have hk' : k ∈ ([((0 : Int), (0 : Int))] : List Key) := hk
    rw [List.mem_singleton] at hk'
    show k ∈ jKeys ((domainKeys (gridX / 2) (gridZ / 2)).foldl
      (fun m k => jSet m k (createGridCell k.1 k.2)) [])
    rw [hgrid, hkeys, hk']
    exact hcenter
  · show (1 : Nat) ≤ max 1 target
    omega
  · intro q hq
    have hq' : q ∈ centerQueue (gridX / 2) (gridZ / 2) [((0 : Int), (0 : Int))]
        (shuffle g HORIZONTAL_FACES 0).1 := hq
    obtain ⟨f, hf, hshape, hbnd⟩ := centerQueue_mem hq'
    have hfh : f ∈ HORIZONTAL_FACES := shuffle_mem f hf
    subst hshape
    refine ⟨List.mem_singleton.mpr rfl, hfh, ?_, hbnd⟩
    show ((faceDX f, faceDZ f) : Key) = adjK ((0 : Int), (0 : Int)) f
    simp [adjK]
  · intro k hk
    have hk' : k ∈ ([((0 : Int), (0 : Int))] : List Key) := hk
    rw [List.mem_singleton] at hk'
    subst hk'
    exact Relation.ReflTransGen.refl

/-- The grown state satisfies the invariant. -/
theorem genGrowth_inv (gridX gridZ targetCells : Nat) (g : Nat → Nat) :
    GInv (gridX / 2) (gridZ / 2) (min targetCells (gridX * gridZ))
      (genGrowth gridX gridZ targetCells g) := by
  have hinv1 := phase2Loop_inv (g := g)
    (4 + 3 * (domainKeys (gridX / 2) (gridZ / 2)).length + 1) _
    (initState_inv gridX gridZ (min targetCells (gridX * gridZ)) g)
  show GInv (gridX / 2) (gridZ / 2) (min targetCells (gridX * gridZ))
    (if (phase2Loop g (gridX / 2) (gridZ / 2) (min targetCells (gridX * gridZ))
        (4 + 3 * (domainKeys (gridX / 2) (gridZ / 2)).length + 1)
        (initState gridX gridZ g)).collapsed.length < min targetCells (gridX * gridZ) then
      fillLoop g (gridX / 2) (gridZ / 2) (min targetCells (gridX * gridZ))
        (jKeys (phase2Loop g (gridX / 2) (gridZ / 2) (min targetCells (gridX * gridZ))
          (4 + 3 * (domainKeys (gridX / 2) (gridZ / 2)).length + 1)
          (initState gridX gridZ g)).gridCells)
        (phase2Loop g (gridX / 2) (gridZ / 2) (min targetCells (gridX * gridZ))
          (4 + 3 * (domainKeys (gridX / 2) (gridZ / 2)).length + 1)
          (initState gridX gridZ g))
    else phase2Loop g (gridX / 2) (gridZ / 2) (min targetCells (gridX * gridZ))
      (4 + 3 * (domainKeys (gridX / 2) (gridZ / 2)).length + 1) (initState gridX gridZ g))
  by_cases hlt : (phase2Loop g (gridX / 2) (gridZ / 2) (min targetCells (gridX * gridZ))
      (4 + 3 * (domainKeys (gridX / 2) (gridZ / 2)).length + 1)
      (initState gridX gridZ g)).collapsed.length < min targetCells (gridX * gridZ)
  · rw [if_pos hlt]
    exact fillLoop_inv _ _ hinv1
  · rw [if_neg hlt]
    exact hinv1

/-! ## The independent collapse of Phase 3 -/

theorem collapseList_ne_nil {g : Nat → Nat} {opts : List Nat} (n : Nat) (h : opts ≠ []) :
    ∃ v ∈ opts, (collapseList g opts n).1 = [v] := by
  have hlen : opts.length ≠ 0 := fun hh => h (List.length_eq_zero.mp hh)
  refine ⟨opts.getD (rand g n opts.length) 0, ?_, ?_⟩
  · exact getD_mem (by
      have := Nat.mod_lt (g n) (y := opts.length) (Nat.pos_of_ne_zero hlen)
      simpa [rand] using this)
  · simp [collapseList, hlen]

theorem collapseList_nil (g : Nat → Nat) (n : Nat) : (collapseList g [] n).1 = [] := by
  simp [collapseList]

theorem collapseFaceOptions_length (g : Nat → Nat) :
    ∀ (l : List (List Nat)) (n : Nat), (collapseFaceOptions g l n).1.length = l.length := by
  intro l
  induction l with
  | nil => intro n; rfl
  | cons o os ih => intro n; simp [collapseFaceOptions, ih]

theorem collapseFaceOptions_getD (g : Nat → Nat) :
    ∀ (l : List (List Nat)) (n i : Nat), i < l.length →
      ∃ nn, (collapseFaceOptions g l n).1.getD i [] = (collapseList g (l.getD i []) nn).1 := by
  intro l
  induction l with
  | nil => intro n i hi; simp at hi
  | cons o os ih =>
    intro n i hi
    cases i with
    | zero => exact ⟨n, rfl⟩
    | succ i =>
      obtain ⟨nn, hnn⟩ := ih (collapseList g o n).2 i (by simpa using hi)
      exact ⟨nn, by simpa [collapseFaceOptions] using hnn⟩

theorem collapseCell_position (g : Nat → Nat) (c : Cell) (n : Nat) :
    (collapseCell g c n).1.position = c.position := rfl

theorem collapseCell_faceStates (g : Nat → Nat) (c : Cell) (n : Nat) :
    (collapseCell g c n).1.faceStates = c.faceStates := rfl

theorem collapseCell_length (g : Nat → Nat) (c : Cell) (n : Nat) :
    (collapseCell g c n).1.faceOptions.length = c.faceOptions.length :=
  collapseFaceOptions_length g c.faceOptions n

theorem collapsePhase_keys (g : Nat → Nat) (grid : JMap Cell) :
    ∀ (ord : List (Key × Int)) (acc : JMap Cell) (n : Nat),
      (∀ k ∈ ord.map (fun q => q.1), k ∈ jKeys grid) →
      (∀ k ∈ ord.map (fun q => q.1), k ∉ jKeys acc) →
      (ord.map (fun q => q.1)).Nodup →
      jKeys (collapsePhase g grid ord acc n).1 = jKeys acc ++ ord.map (fun q => q.1) := by
  intro ord
  induction ord with
  | nil => intro acc n _ _ _; simp [collapsePhase]
  | cons q rest ih =>
    intro acc n hmem hdisj hnd
    obtain ⟨k0, x0⟩ := q
    obtain ⟨c0, hc0⟩ := mem_jKeys (hmem k0 (by simp))
    have hstep : collapsePhase g grid ((k0, x0) :: rest) acc n =
        match jGet? grid k0 with
        | none => collapsePhase g grid rest acc n
        | some cell => collapsePhase g grid rest (jSet acc k0 (collapseCell g cell n).1)
            (collapseCell g cell n).2 := rfl
    rw [hstep, hc0]
    show jKeys (collapsePhase g grid rest (jSet acc k0 (collapseCell g c0 n).1)
      (collapseCell g c0 n).2).1 = _
    have hk0acc : k0 ∉ jKeys acc := hdisj k0 (by simp)
    have hkacc : jKeys (jSet acc k0 (collapseCell g c0 n).1) = jKeys acc ++ [k0] :=
      jKeys_jSet_not_mem _ hk0acc
    have hnd' := hnd
    simp only [List.map_cons, List.nodup_cons] at hnd'
    rw [ih _ _ (fun k hk => hmem k (by simp [hk]))
      (by
        intro k hk
        rw [hkacc, List.mem_append, List.mem_singleton]
        rintro (h | h)
        · exact hdisj k (by simp [hk]) h
        · exact hnd'.1 (h ▸ hk))
      hnd'.2, hkacc, List.append_assoc]
    simp

theorem collapsePhase_src (g : Nat → Nat) (grid : JMap Cell) :
    ∀ (ord : List (Key × Int)) (acc : JMap Cell) (n : Nat),
      (∀ k c, jGet? acc k = some c →
        ∃ c₀ nn, jGet? grid k = some c₀ ∧ c = (collapseCell g c₀ nn).1) →
      ∀ k c, jGet? (collapsePhase g grid ord acc n).1 k = some c →
        ∃ c₀ nn, jGet? grid k = some c₀ ∧ c = (collapseCell g c₀ nn).1 := by
  intro ord
  induction ord with
  | nil => intro acc n hacc k c hk; exact hacc k c hk
  | cons q rest ih =>
    intro acc n hacc k c hk
    obtain ⟨k0, x0⟩ := q
    have hstep : collapsePhase g grid ((k0, x0) :: rest) acc n =
        match jGet? grid k0 with
        | none => collapsePhase g grid rest acc n
        | some cell => collapsePhase g grid rest (jSet acc k0 (collapseCell g cell n).1)
            (collapseCell g cell n).2 := rfl
    cases hc0 : jGet? grid k0 with
    | none =>
      rw [hstep, hc0] at hk
      exact ih acc n hacc k c hk
    | some c0 =>
      rw [hstep, hc0] at hk
      refine ih _ _ ?_ k c hk
      intro k' c' hk'
      rcases jGet?_jSet_cases hk' with ⟨rfl, rfl⟩ | h
      · exact ⟨c0, n, hc0, rfl⟩
      · exact hacc k' c' h

/-- A face after one repair operation: unchanged, or overwritten by an
open singleton at a horizontal index. -/
theorem faceStep_face_pres {m : JMap Cell} (hcoh : Coh m) (hsh : Shape6 m) {f : Nat}
    (hf : f ∈ HORIZONTAL_FACES) (c : Key) (x : Key) (g' : Nat) :
    faceAt (faceStep m c f) x g' = faceAt m x g' ∨
      (g' ∈ HORIZONTAL_FACES ∧ openS (faceAt (faceStep m c f) x g')) := by
  rcases faceStep_split hcoh hf c with ⟨heq, -⟩ | ⟨cc, nb, hc, hnb, ho, heq⟩
  · rw [heq]; exact Or.inl rfl
  · by_cases hx : x = adjK c f
    · by_cases hg : g' = oppositeFace f
      · subst hx; subst hg
        right
        refine ⟨opp_mem_horiz hf, ?_⟩
        have hval : faceAt (faceStep m c f) (adjK c f) (oppositeFace f) = faceAt m c f := by
          rw [heq, faceAt_jSet_self]
          show (nb.faceOptions.set (oppositeFace f) (cc.faceOptions.getD f [])).getD
              (oppositeFace f) [] = faceAt m c f
          rw [getD_set_self _ _ _ (by rw [shape_get hsh hnb]; exact opp_lt_6 hf)]
          exact (faceAt_eq_of_get hc f).symm
        rw [hval]
        exact ho
      · subst hx
        left
        rw [heq, faceAt_jSet_self]
        show (nb.faceOptions.set (oppositeFace f) (cc.faceOptions.getD f [])).getD g' [] = _
        rw [getD_set_ne _ _ _ (fun hh => hg hh.symm), faceAt_eq_of_get hnb]
    · left
      rw [heq, faceAt_jSet_other _ _ _ hx]

/-- Cell fields other than the face-option entries survive one repair
operation. -/
theorem faceStep_get_fields {m : JMap Cell} (hcoh : Coh m) {f : Nat}
    (hf : f ∈ HORIZONTAL_FACES) (c : Key) (x : Key) (cx : Cell)
    (hx : jGet? (faceStep m c f) x = some cx) :
    ∃ cx₀, jGet? m x = some cx₀ ∧ cx.position = cx₀.position ∧ cx.size = cx₀.size ∧
      cx.faceStates = cx₀.faceStates ∧ cx.faceOptions.length = cx₀.faceOptions.length := by
  rcases faceStep_split hcoh hf c with ⟨heq, -⟩ | ⟨cc, nb, hc, hnb, ho, heq⟩
  · rw [heq] at hx
    exact ⟨cx, hx, rfl, rfl, rfl, rfl⟩
  · rw [heq] at hx
    rcases jGet?_jSet_cases hx with ⟨rfl, rfl⟩ | h
    · exact ⟨nb, hnb, rfl, rfl, rfl, by simp [List.length_set]⟩
    · exact ⟨cx, h, rfl, rfl, rfl, rfl⟩

/-- Fold version of `faceStep_face_pres`. -/
theorem opsFold_face_pres :
    ∀ (ops : List (Key × Nat)) (m : JMap Cell), Coh m → Shape6 m →
      (∀ op ∈ ops, op.2 ∈ HORIZONTAL_FACES) → ∀ x g',
      faceAt (opsFold ops m) x g' = faceAt m x g' ∨
        (g' ∈ HORIZONTAL_FACES ∧ openS (faceAt (opsFold ops m) x g')) := by
  intro ops
  induction ops with
  | nil => intro m _ _ _ x g'; exact Or.inl rfl
  | cons op ops ih =>
    intro m hcoh hsh hops x g'
    obtain ⟨c, f⟩ := op
    have hf : f ∈ HORIZONTAL_FACES := hops (c, f) (List.mem_cons_self _ _)
    have hfold : opsFold ((c, f) :: ops) m = opsFold ops (faceStep m c f) := rfl
    rw [hfold]
    rcases ih (faceStep m c f) (coh_faceStep hcoh hf c) (shape_faceStep hcoh hsh hf c)
      (fun op hop => hops op (List.mem_cons_of_mem _ hop)) x g' with h1 | h1
    · rcases faceStep_face_pres hcoh hsh hf c x g' with h2 | h2
      · exact Or.inl (h1.trans h2)
      · exact Or.inr ⟨h2.1, h1 ▸ h2.2⟩
    · exact Or.inr h1

/-- Fold version of `faceStep_get_fields`. -/
theorem opsFold_get_fields :
    ∀ (ops : List (Key × Nat)) (m : JMap Cell), Coh m → Shape6 m →
      (∀ op ∈ ops, op.2 ∈ HORIZONTAL_FACES) → ∀ x cx,
      jGet? (opsFold ops m) x = some cx →
      ∃ cx₀, jGet? m x = some cx₀ ∧ cx.position = cx₀.position ∧ cx.size = cx₀.size ∧
        cx.faceStates = cx₀.faceStates ∧ cx.faceOptions.length = cx₀.faceOptions.length := by
  intro ops
  induction ops with
  | nil => intro m _ _ _ x cx hx; exact ⟨cx, hx, rfl, rfl, rfl, rfl⟩
  | cons op ops ih =>
    intro m hcoh hsh hops x cx hx
    obtain ⟨c, f⟩ := op
    have hf : f ∈ HORIZONTAL_FACES := hops (c, f) (List.mem_cons_self _ _)
    have hfold : opsFold ((c, f) :: ops) m = opsFold ops (faceStep m c f) := rfl
    rw [hfold] at hx
    obtain ⟨cx₁, hx₁, e1, e2, e3, e4⟩ := ih (faceStep m c f) (coh_faceStep hcoh hf c)
      (shape_faceStep hcoh hsh hf c) (fun op hop => hops op (List.mem_cons_of_mem _ hop)) x cx hx
    obtain ⟨cx₀, hx₀, f1, f2, f3, f4⟩ := faceStep_get_fields hcoh hf c x cx₁ hx₁
    exact ⟨cx₀, hx₀, e1.trans f1, e2.trans f2, e3.trans f3, e4.trans f4⟩

/-- Openness of a face survives the whole repair pass. -/
theorem repairPass_open_pres {m : JMap Cell} (hcoh : Coh m) (hsh : Shape6 m)
    (x : Key) (g' : Nat) (h : openS (faceAt m x g')) :
    openS (faceAt (repairPass m) x g') := by
  rw [repairPass, repairWithOrder_eq_opsFold]
  rcases opsFold_face_pres (orderOps (jKeys m)) m hcoh hsh orderOps_horiz x g' with h1 | h1
  · rw [h1]; exact h
  · exact h1.2

theorem jGet?_of_mem_nodup {β : Type} {m : JMap β} {k : Key} {c : β}
    (hnd : (jKeys m).Nodup) (h : (k, c) ∈ m) : jGet? m k = some c := by
  induction m with
  | nil => simp at h
  | cons p m ih =>
    rw [jKeys_cons, List.nodup_cons] at hnd
    rcases List.mem_cons.mp h with h' | h'
    · rw [← h']
      simp [jGet?]
    · have hk : k ∈ jKeys m := by
        rw [jKeys]
        exact List.mem_map.mpr ⟨(k, c), h', rfl⟩
      have hp : p.1 ≠ k := fun hh => hnd.1 (hh ▸ hk)
      simp only [jGet?, hp, if_false]
      exact ih hnd.2 h'

/-! ## Facts about the pre-repair chunk -/

theorem preRepair_def (gridX gridZ targetCells : Nat) (g : Nat → Nat) :
    preRepair gridX gridZ targetCells g =
      (collapsePhase g (genGrowth gridX gridZ targetCells g).gridCells
        (genGrowth gridX gridZ targetCells g).collapseOrder []
        (genGrowth gridX gridZ targetCells g).rn).1 := rfl

theorem preRepair_keys (gridX gridZ targetCells : Nat) (g : Nat → Nat) :
    jKeys (preRepair gridX gridZ targetCells g) =
      (genGrowth gridX gridZ targetCells g).collapsed := by
  have hinv := genGrowth_inv gridX gridZ targetCells g
  rw [preRepair_def, collapsePhase_keys g _ _ _ _
    (by rw [hinv.ord_keys]; exact hinv.coll_mem)
    (by intro k _; simp [jKeys_nil])
    (by rw [hinv.ord_keys]; exact hinv.nodup)]
  rw [hinv.ord_keys]
  rfl

theorem preRepair_src (gridX gridZ targetCells : Nat) (g : Nat → Nat) :
    ∀ k c, jGet? (preRepair gridX gridZ targetCells g) k = some c →
      ∃ c₀ nn, jGet? (genGrowth gridX gridZ targetCells g).gridCells k = some c₀ ∧
        c = (collapseCell g c₀ nn).1 := by
  rw [preRepair_def]
  exact collapsePhase_src g _ _ [] _ (by intro k c h; simp [jGet?] at h)

theorem preRepair_nodup (gridX gridZ targetCells : Nat) (g : Nat → Nat) :
    (jKeys (preRepair gridX gridZ targetCells g)).Nodup := by
  rw [preRepair_keys]
  exact (genGrowth_inv gridX gridZ targetCells g).nodup

theorem preRepair_coh (gridX gridZ targetCells : Nat) (g : Nat → Nat) :
    Coh (preRepair gridX gridZ targetCells g) := by
  intro p hp
  obtain ⟨k, c⟩ := p
  have hg : jGet? (preRepair gridX gridZ targetCells g) k = some c :=
    jGet?_of_mem_nodup (preRepair_nodup gridX gridZ targetCells g) hp
  obtain ⟨c₀, nn, hc₀, rfl⟩ := preRepair_src gridX gridZ targetCells g k c hg
  show (collapseCell g c₀ nn).1.position = _
  rw [collapseCell_position]
  exact coh_get (genGrowth_inv gridX gridZ targetCells g).coh hc₀

theorem preRepair_shape (gridX gridZ targetCells : Nat) (g : Nat → Nat) :
    Shape6 (preRepair gridX gridZ targetCells g) := by
  intro p hp
  obtain ⟨k, c⟩ := p
  have hg : jGet? (preRepair gridX gridZ targetCells g) k = some c :=
    jGet?_of_mem_nodup (preRepair_nodup gridX gridZ targetCells g) hp
  obtain ⟨c₀, nn, hc₀, rfl⟩ := preRepair_src gridX gridZ targetCells g k c hg
  show (collapseCell g c₀ nn).1.faceOptions.length = 6
  rw [collapseCell_length]
  exact ((genGrowth_inv gridX gridZ targetCells g).wf _ (jGet?_entry_mem hc₀)).1

/-- Every horizontal face of a pre-repair cell is a singleton whose id
comes from the wall or the open catalog. -/
theorem preRepair_resolved (gridX gridZ targetCells : Nat) (g : Nat → Nat) :
    ∀ k c f, f ∈ HORIZONTAL_FACES →
      jGet? (preRepair gridX gridZ targetCells g) k = some c →
      ∃ v, c.faceOptions.getD f [] = [v] ∧ (v ∈ WALL_IDS ∨ v ∈ OPEN_IDS) := by
  intro k c f hf hg
  obtain ⟨c₀, nn, hc₀, rfl⟩ := preRepair_src gridX gridZ targetCells g k c hg
  obtain ⟨hlen, -, -, -, hhor⟩ :=
    (genGrowth_inv gridX gridZ targetCells g).wf _ (jGet?_entry_mem hc₀)
  obtain ⟨nn2, hface⟩ := collapseFaceOptions_getD g c₀.faceOptions nn f
    (by rw [hlen]; exact horiz_lt_6 hf)
  show ∃ v, (collapseFaceOptions g c₀.faceOptions nn).1.getD f [] = [v] ∧ _
  rw [hface]
  rcases hhor f hf with hw | hw
  · replace hw : c₀.faceOptions.getD f [] = WALL_IDS := hw
    obtain ⟨v, hv, hvv⟩ := @collapseList_ne_nil g
      (c₀.faceOptions.getD f []) nn2 (by rw [hw]; decide)
    exact ⟨v, hvv, Or.inl (hw ▸ hv)⟩
  · replace hw : c₀.faceOptions.getD f [] = OPEN_IDS := hw
    obtain ⟨v, hv, hvv⟩ := @collapseList_ne_nil g
      (c₀.faceOptions.getD f []) nn2 (by rw [hw]; decide)
    exact ⟨v, hvv, Or.inr (hw ▸ hv)⟩

/-- A face carved fully open in the grown grid collapses to an open
singleton in the pre-repair chunk. -/
theorem preRepair_open (gridX gridZ targetCells : Nat) (g : Nat → Nat)
    (k : Key) (f : Nat) (hf : f ∈ HORIZONTAL_FACES)
    (hk : k ∈ (genGrowth gridX gridZ targetCells g).collapsed)
    (hopen : faceAt (genGrowth gridX gridZ targetCells g).gridCells k f = OPEN_IDS) :
    openS (faceAt (preRepair gridX gridZ targetCells g) k f) := by
  have hkcc : k ∈ jKeys (preRepair gridX gridZ targetCells g) := by
    rw [preRepair_keys]; exact hk
  obtain ⟨c, hc⟩ := mem_jKeys hkcc
  obtain ⟨c₀, nn, hc₀, hcc⟩ := preRepair_src gridX gridZ targetCells g k c hc
  have hlen : c₀.faceOptions.length = 6 :=
    ((genGrowth_inv gridX gridZ targetCells g).wf _ (jGet?_entry_mem hc₀)).1
  have hfval : c₀.faceOptions.getD f [] = OPEN_IDS := by
    rw [← faceAt_eq_of_get hc₀]
    exact hopen
  obtain ⟨nn2, hface⟩ := collapseFaceOptions_getD g c₀.faceOptions nn f
    (by rw [hlen]; exact horiz_lt_6 hf)
  rw [faceAt_eq_of_get hc, hcc]
  show openS ((collapseFaceOptions g c₀.faceOptions nn).1.getD f [])
  rw [hface, hfval]
  obtain ⟨v, hv, hvv⟩ := @collapseList_ne_nil g OPEN_IDS nn2 (by decide)
  rw [hvv]
  exact ⟨rfl, by simpa using hv⟩

theorem repairPass_keys {m : JMap Cell} (hcoh : Coh m) (hsh : Shape6 m)
    (hnd : (jKeys m).Nodup) : jKeys (repairPass m) = jKeys m :=
  (repairWithOrder_wf (jKeys m) m hcoh hsh hnd).2.2

theorem generateCascade_cc (gridX gridZ targetCells : Nat) (g : Nat → Nat) :
    (generateCascade gridX gridZ targetCells g).collapsedCells =
      repairPass (preRepair gridX gridZ targetCells g) := rfl

theorem generateCascade_order (gridX gridZ targetCells : Nat) (g : Nat → Nat) :
    (generateCascade gridX gridZ targetCells g).collapseOrder =
      (genGrowth gridX gridZ targetCells g).collapseOrder := rfl

theorem cc_keys (gridX gridZ targetCells : Nat) (g : Nat → Nat) :
    jKeys (generateCascade gridX gridZ targetCells g).collapsedCells =
      (genGrowth gridX gridZ targetCells g).collapsed := by
  rw [generateCascade_cc,
    repairPass_keys (preRepair_coh gridX gridZ targetCells g)
      (preRepair_shape gridX gridZ targetCells g) (preRepair_nodup gridX gridZ targetCells g),
    preRepair_keys]

/-- C10: the collapse order returned by `generateCascade` starts at the
origin key, has pairwise distinct keys, and its key list is exactly the
key list of the returned collapsed-cell map (hence equal lengths). -/
theorem c10_collapse_order (gridX gridZ targetCells : Nat) (g : Nat → Nat) :
    ((generateCascade gridX gridZ targetCells g).collapseOrder.map (fun q => q.1)).head? =
      some ((0 : Int), (0 : Int)) ∧
    ((generateCascade gridX gridZ targetCells g).collapseOrder.map (fun q => q.1)).Nodup ∧
    jKeys (generateCascade gridX gridZ targetCells g).collapsedCells =
      (generateCascade gridX gridZ targetCells g).collapseOrder.map (fun q => q.1) := by
  have hinv := genGrowth_inv gridX gridZ targetCells g
  rw [generateCascade_order, hinv.ord_keys]
  exact ⟨hinv.head0, hinv.nodup, cc_keys gridX gridZ targetCells g⟩

/-- C6 amended: the returned chunk never holds more than
`max 1 (min targetCells (gridX * gridZ))` cells — the clamped target,
except that the unconditionally collapsed origin cell keeps the count at
least 1 even when the clamped target is 0. -/
theorem c6_size_bound (gridX gridZ targetCells : Nat) (g : Nat → Nat) :
    (generateCascade gridX gridZ targetCells g).collapsedCells.length ≤
      max 1 (min targetCells (gridX * gridZ)) := by
  have hinv := genGrowth_inv gridX gridZ targetCells g
  have hlen : (generateCascade gridX gridZ targetCells g).collapsedCells.length =
      (jKeys (generateCascade gridX gridZ targetCells g).collapsedCells).length :=
    (List.length_map _ _).symm
  rw [hlen, cc_keys]
  exact hinv.size_le

/-- C1: in the chunk returned by `generateCascade`, for every pair of
cells at adjacent grid positions sharing face `f` and `opposite f`, if
the first cell's face is resolved to a single open id then the
neighbor's opposite face is resolved to the identical id. -/
theorem c1_symmetry (gridX gridZ targetCells : Nat) (g : Nat → Nat) (k : Key)
    (f : Nat) (v : Nat) (hf : f ∈ HORIZONTAL_FACES)
    (hnb : adjK k f ∈ jKeys (generateCascade gridX gridZ targetCells g).collapsedCells)
    (hval : faceAt (generateCascade gridX gridZ targetCells g).collapsedCells k f = [v])
    (hv : v ∈ OPEN_IDS) :
    faceAt (generateCascade gridX gridZ targetCells g).collapsedCells
      (adjK k f) (oppositeFace f) = [v] := by
  rw [generateCascade_cc] at hnb hval ⊢
  have hnb' : adjK k f ∈ jKeys (preRepair gridX gridZ targetCells g) := by
    rw [← repairPass_keys (preRepair_coh gridX gridZ targetCells g)
      (preRepair_shape gridX gridZ targetCells g) (preRepair_nodup gridX gridZ targetCells g)]
    exact hnb
  have hsym := repairPass_symmetric (preRepair gridX gridZ targetCells g)
    (preRepair_coh gridX gridZ targetCells g) (preRepair_shape gridX gridZ targetCells g)
    (preRepair_nodup gridX gridZ targetCells g) k f hf hnb'
  have hopen : openS (faceAt (repairPass (preRepair gridX gridZ targetCells g)) k f) := by
    rw [hval]
    exact ⟨rfl, by simpa using hv⟩
  rw [hsym hopen, hval]

/-- Witness for C1 on a concrete run: the carved edge between the origin
and its negative-x neighbor is open-resolved and symmetric. -/
theorem c1_witness :
    (1 : Nat) ∈ HORIZONTAL_FACES ∧
    adjK ((0 : Int), (0 : Int)) 1 ∈ jKeys (generateCascade 3 1 2 (fun _ => 0)).collapsedCells ∧
    faceAt (generateCascade 3 1 2 (fun _ => 0)).collapsedCells ((0 : Int), (0 : Int)) 1 = [0] ∧
    (0 : Nat) ∈ OPEN_IDS ∧
    faceAt (generateCascade 3 1 2 (fun _ => 0)).collapsedCells
      (adjK ((0 : Int), (0 : Int)) 1) (oppositeFace 1) = [0] :=
  ⟨by decide, by decide, by decide, by decide,
    c1_symmetry 3 1 2 (fun _ => 0) ((0 : Int), (0 : Int)) 1 0
      (by decide) (by decide) (by decide) (by decide)⟩

/-- C5: every cell of the chunk returned by `generateCascade` is
reachable from the origin cell through chains of adjacent cells whose
shared faces are resolved open (and the origin itself is in the chunk). -/
theorem c5_connectivity (gridX gridZ targetCells : Nat) (g : Nat → Nat) :
    (((0 : Int), (0 : Int)) : Key) ∈
      jKeys (generateCascade gridX gridZ targetCells g).collapsedCells ∧
    ∀ k ∈ jKeys (generateCascade gridX gridZ targetCells g).collapsedCells,
      Relation.ReflTransGen (openAdj (generateCascade gridX gridZ targetCells g).collapsedCells)
        ((0 : Int), (0 : Int)) k := by
  have hinv := genGrowth_inv gridX gridZ targetCells g
  have hkeys := cc_keys gridX gridZ targetCells g
  have hmem0 : (((0 : Int), (0 : Int)) : Key) ∈ (genGrowth gridX gridZ targetCells g).collapsed :=
    List.mem_of_mem_head? (by rw [hinv.head0]; rfl)
  constructor
  · rw [hkeys]; exact hmem0
  · intro k hk
    rw [hkeys] at hk
    refine Relation.ReflTransGen.mono ?_ (hinv.reach k hk)
    rintro a b ⟨ha, hb, f, hf, hadj, hopa, hopb⟩
    refine ⟨by rw [hkeys]; exact ha, by rw [hkeys]; exact hb, f, hf, hadj, ?_⟩
    have h1 := preRepair_open gridX gridZ targetCells g a f hf ha hopa
    have h2 := repairPass_open_pres (preRepair_coh gridX gridZ targetCells g)
      (preRepair_shape gridX gridZ targetCells g) a f h1
    rw [generateCascade_cc]
    exact h2

/-- Witness for C5 on a concrete run. -/
theorem c5_witness :
    (((0 : Int), (0 : Int)) : Key) ∈ jKeys (generateCascade 3 1 2 (fun _ => 0)).collapsedCells ∧
    Relation.ReflTransGen (openAdj (generateCascade 3 1 2 (fun _ => 0)).collapsedCells)
      ((0 : Int), (0 : Int)) ((-1 : Int), (0 : Int)) :=
  ⟨(c5_connectivity 3 1 2 (fun _ => 0)).1,
    (c5_connectivity 3 1 2 (fun _ => 0)).2 ((-1 : Int), (0 : Int)) (by decide)⟩

theorem preRepair_states (gridX gridZ targetCells : Nat) (g : Nat → Nat) :
    ∀ k c, jGet? (preRepair gridX gridZ targetCells g) k = some c → c.faceStates = 63 := by
  intro k c hg
  obtain ⟨c₀, nn, hc₀, rfl⟩ := preRepair_src gridX gridZ targetCells g k c hg
  rw [collapseCell_faceStates]
  exact ((genGrowth_inv gridX gridZ targetCells g).wf _ (jGet?_entry_mem hc₀)).2.2.2.1

/-- C8 amended: for cells made by the constructors and for cells of
chunks returned by `generateCascade`, an empty face-option sequence
occurs only at the vertical faces (indices 2 and 3), and there the
corresponding `faceStates` bit is 1, not 0 — `faceStates` is always the
constant `0b111111`. -/
theorem c8_empty_faces (gridX gridZ targetCells : Nat) (g : Nat → Nat) :
    (∀ (x y z : Int) (i : Nat), i < 6 → (createCell x y z).faceOptions.getD i [] = [] →
      (i = 2 ∨ i = 3) ∧ Nat.testBit (createCell x y z).faceStates i = true) ∧
    (∀ (x z : Int) (i : Nat), i < 6 → (createGridCell x z).faceOptions.getD i [] = [] →
      (i = 2 ∨ i = 3) ∧ Nat.testBit (createGridCell x z).faceStates i = true) ∧
    (∀ k c i, jGet? (generateCascade gridX gridZ targetCells g).collapsedCells k = some c →
      i < 6 → c.faceOptions.getD i [] = [] →
      (i = 2 ∨ i = 3) ∧ Nat.testBit c.faceStates i = true) := by
  refine ⟨?_, ?_, ?_⟩
  · intro x y z i hi6 hempty
    interval_cases i
    · simp [createCell, ALL_IDS, OPEN_IDS, WALL_IDS] at hempty
    · simp [createCell, ALL_IDS, OPEN_IDS, WALL_IDS] at hempty
    · exact ⟨Or.inl rfl, (by decide : Nat.testBit 63 2 = true)⟩
    · exact ⟨Or.inr rfl, (by decide : Nat.testBit 63 3 = true)⟩
    · simp [createCell, ALL_IDS, OPEN_IDS, WALL_IDS] at hempty
    · simp [createCell, ALL_IDS, OPEN_IDS, WALL_IDS] at hempty
  · intro x z i hi6 hempty
    interval_cases i
    · simp [createGridCell, WALL_IDS] at hempty
    · simp [createGridCell, WALL_IDS] at hempty
    · exact ⟨Or.inl rfl, (by decide : Nat.testBit 63 2 = true)⟩
    · exact ⟨Or.inr rfl, (by decide : Nat.testBit 63 3 = true)⟩
    · simp [createGridCell, WALL_IDS] at hempty
    · simp [createGridCell, WALL_IDS] at hempty
  · intro k c i hget hi6 hempty
    rw [generateCascade_cc, repairPass, repairWithOrder_eq_opsFold] at hget
    obtain ⟨c₁, hc₁, hpos, hsize, hstates, hlen⟩ := opsFold_get_fields _ _
      (preRepair_coh gridX gridZ targetCells g) (preRepair_shape gridX gridZ targetCells g)
      orderOps_horiz k c hget
    have hface' : faceAt (opsFold (orderOps (jKeys (preRepair gridX gridZ targetCells g)))
        (preRepair gridX gridZ targetCells g)) k i = [] := by
      rw [faceAt_eq_of_get hget]
      exact hempty
    have hccface : faceAt (preRepair gridX gridZ targetCells g) k i = [] := by
      rcases opsFold_face_pres (orderOps (jKeys (preRepair gridX gridZ targetCells g)))
        (preRepair gridX gridZ targetCells g) (preRepair_coh gridX gridZ targetCells g)
        (preRepair_shape gridX gridZ targetCells g) orderOps_horiz k i with hp | hp
      · rw [← hp]; exact hface'
      · rw [hface'] at hp
        exact absurd hp.2 openS_nil
    have hc1face : c₁.faceOptions.getD i [] = [] := by
      rw [← faceAt_eq_of_get hc₁]
      exact hccface
    have hnh : i ∉ HORIZONTAL_FACES := by
      intro hih
      obtain ⟨v, hv, -⟩ := preRepair_resolved gridX gridZ targetCells g k c₁ i hih hc₁
      rw [hc1face] at hv
      exact absurd hv (by simp)
    have h63 : c.faceStates = 63 :=
      hstates.trans (preRepair_states gridX gridZ targetCells g k c₁ hc₁)
    rw [h63]
    interval_cases i
    · exact absurd (by decide : (0 : Nat) ∈ HORIZONTAL_FACES) hnh
    · exact absurd (by decide : (1 : Nat) ∈ HORIZONTAL_FACES) hnh
    · exact ⟨Or.inl rfl, by decide⟩
    · exact ⟨Or.inr rfl, by decide⟩
    · exact absurd (by decide : (4 : Nat) ∈ HORIZONTAL_FACES) hnh
    · exact absurd (by decide : (5 : Nat) ∈ HORIZONTAL_FACES) hnh

/-- Witness for C8 amended at concrete inputs. -/
theorem c8_empty_faces_witness :
    ((1 : Nat) < 6 ∧ (createCell 0 0 0).faceOptions.getD 2 [] = []) ∧
    ((2 = 2 ∨ 2 = 3) ∧ Nat.testBit (createCell 0 0 0).faceStates 2 = true) :=
  ⟨⟨by decide, by decide⟩,
    (c8_empty_faces 1 1 1 (fun _ => 0)).1 0 0 0 2 (by decide) (by decide)⟩

/-! ## Order-independence of the repair pass under no divergence (C4) -/

theorem cell_ext {c c' : Cell} (h1 : c.position = c'.position) (h2 : c.size = c'.size)
    (h3 : c.faceStates = c'.faceStates) (h4 : c.faceOptions = c'.faceOptions) : c = c' := by
  cases c; cases c'
  simp only at h1 h2 h3 h4
  simp [h1, h2, h3, h4]

theorem listEq6 {l l' : List (List Nat)} (h1 : l.length = 6) (h2 : l'.length = 6)
    (h : ∀ i, i < 6 → l.getD i [] = l'.getD i []) : l = l' := by
  apply List.ext_getElem?
  intro n
  by_cases hn : n < 6
  · have ha : l[n]? = some (l.getD n []) := by
      rw [List.getD_eq_getElem _ _ (by omega)]
      exact List.getElem?_eq_getElem (by omega)
    have hb : l'[n]? = some (l'.getD n []) := by
      rw [List.getD_eq_getElem _ _ (by omega)]
      exact List.getElem?_eq_getElem (by omega)
    rw [ha, hb, h n hn]
  · rw [List.getElem?_eq_none (by omega), List.getElem?_eq_none (by omega)]

/-- No carved edge collapsed to two different open ids: whenever both
sides of a shared face are open-resolved, they hold the same list. -/
def NoDiverge (m : JMap Cell) : Prop :=
  ∀ k ∈ jKeys m, ∀ f ∈ HORIZONTAL_FACES, openS (faceAt m k f) →
    openS (faceAt m (adjK k f) (oppositeFace f)) →
    faceAt m (adjK k f) (oppositeFace f) = faceAt m k f

instance (m : JMap Cell) : Decidable (NoDiverge m) := by unfold NoDiverge; infer_instance

/-- The face value forced by the ops already performed, relative to the
original chunk. -/
def EFace (m₀ : JMap Cell) (D : List (Key × Nat)) (k : Key) (f : Nat) : List Nat :=
  if k ∈ jKeys m₀ ∧ (adjK k f, oppositeFace f) ∈ D ∧ adjK k f ∈ jKeys m₀ ∧
      openS (faceAt m₀ (adjK k f) (oppositeFace f))
  then faceAt m₀ (adjK k f) (oppositeFace f)
  else faceAt m₀ k f

theorem rev_unique {c k : Key} {f f' : Nat} (hf : f ∈ HORIZONTAL_FACES)
    (hf' : f' ∈ HORIZONTAL_FACES) (h1 : oppositeFace f' = f) (h2 : adjK k f' = c) :
    k = adjK c f ∧ f' = oppositeFace f := by
  have hff : f' = oppositeFace f := by
    rw [← h1, opp_opp hf']
  have hck : adjK c f = k := by
    rw [← h2, hff]
    calc adjK (adjK k (oppositeFace f)) f
        = adjK (adjK k (oppositeFace f)) (oppositeFace (oppositeFace f)) := by
          rw [opp_opp hf]
      _ = k := adjK_opp (opp_mem_horiz hf) k
  exact ⟨hck.symm, hff⟩

/-- A face other than the one written by an operation is unchanged. -/
theorem faceStep_unchanged {m : JMap Cell} (hcoh : Coh m) (hsh : Shape6 m) {f : Nat}
    (hf : f ∈ HORIZONTAL_FACES) (c k : Key) (f' : Nat)
    (hne : ¬ (k = adjK c f ∧ f' = oppositeFace f)) :
    faceAt (faceStep m c f) k f' = faceAt m k f' := by
  rcases faceStep_split hcoh hf c with ⟨heq, -⟩ | ⟨cc, nb, hc, hnb, ho, heq⟩
  · rw [heq]
  · by_cases hk : k = adjK c f
    · have hf'ne : f' ≠ oppositeFace f := fun hh => hne ⟨hk, hh⟩
      subst hk
      rw [heq, faceAt_jSet_self]
      show (nb.faceOptions.set (oppositeFace f) (cc.faceOptions.getD f [])).getD f' [] = _
      rw [getD_set_ne _ _ _ (fun hh => hf'ne hh.symm), faceAt_eq_of_get hnb]
    · rw [heq, faceAt_jSet_other _ _ _ hk]

/-- The state of the invariant after the remaining ops, given it after
the done ops: the full characterization of the repair fold relative to
the original chunk, under the no-divergence hypothesis.  This is what
makes the final state depend only on the set (not the order) of
performed operations. -/
theorem opsFold_canon {m₀ : JMap Cell} (hH : NoDiverge m₀) :
    ∀ (ops : List (Key × Nat)) (done : List (Key × Nat)) (m : JMap Cell),
    (∀ op ∈ ops, op.2 ∈ HORIZONTAL_FACES) → (∀ op ∈ done, op.2 ∈ HORIZONTAL_FACES) →
    (done ++ ops).Nodup →
    jKeys m = jKeys m₀ → Coh m → Shape6 m →
    (∀ k c₀ c, jGet? m₀ k = some c₀ → jGet? m k = some c →
      c.position = c₀.position ∧ c.size = c₀.size ∧ c.faceStates = c₀.faceStates ∧
      c.faceOptions.length = c₀.faceOptions.length) →
    (∀ k f', f' ∉ HORIZONTAL_FACES → faceAt m k f' = faceAt m₀ k f') →
    (∀ k f', f' ∈ HORIZONTAL_FACES → faceAt m k f' = EFace m₀ done k f') →
    jKeys (opsFold ops m) = jKeys m₀ ∧ Coh (opsFold ops m) ∧ Shape6 (opsFold ops m) ∧
    (∀ k c₀ c, jGet? m₀ k = some c₀ → jGet? (opsFold ops m) k = some c →
      c.position = c₀.position ∧ c.size = c₀.size ∧ c.faceStates = c₀.faceStates ∧
      c.faceOptions.length = c₀.faceOptions.length) ∧
    (∀ k f', f' ∉ HORIZONTAL_FACES → faceAt (opsFold ops m) k f' = faceAt m₀ k f') ∧
    (∀ k f', f' ∈ HORIZONTAL_FACES →
      faceAt (opsFold ops m) k f' = EFace m₀ (done ++ ops) k f') := by
  intro ops
  induction ops with
  | nil =>
    intro done m _ _ _ hkeys hcoh hsh hfields hnh hhor
    exact ⟨hkeys, hcoh, hsh, hfields, hnh, by simpa using hhor⟩
  | cons op ops ih =>
    intro done m hops hdh hnd hkeys hcoh hsh hfields hnh hhor
    obtain ⟨c, f⟩ := op
    have hf : f ∈ HORIZONTAL_FACES := hops (c, f) (List.mem_cons_self _ _)
    have hni : (c, f) ∉ done := by
      rcases List.nodup_append.mp hnd with ⟨-, -, hdisj⟩
      intro hmem
      exact hdisj hmem (List.mem_cons_self _ _)
    have hfold : opsFold ((c, f) :: ops) m = opsFold ops (faceStep m c f) := rfl
    rw [hfold]
    -- one-step facts
    have hkeys1 : jKeys (faceStep m c f) = jKeys m₀ := by
      rw [jKeys_faceStep hcoh hf c]; exact hkeys
    have hcoh1 := coh_faceStep hcoh hf c
    have hsh1 := shape_faceStep hcoh hsh hf c
    have hfields1 : ∀ k c₀ cx, jGet? m₀ k = some c₀ → jGet? (faceStep m c f) k = some cx →
        cx.position = c₀.position ∧ cx.size = c₀.size ∧ cx.faceStates = c₀.faceStates ∧
        cx.faceOptions.length = c₀.faceOptions.length := by
      intro k c₀ cx h₀ hx
      obtain ⟨cx₀, hx₀, e1, e2, e3, e4⟩ := faceStep_get_fields hcoh hf c k cx hx
      obtain ⟨f1, f2, f3, f4⟩ := hfields k c₀ cx₀ h₀ hx₀
      exact ⟨e1.trans f1, e2.trans f2, e3.trans f3, e4.trans f4⟩
    -- the membership form of the EFace condition changes only at the
    -- face written by this very operation
    have hunchanged : ∀ k f', f' ∈ HORIZONTAL_FACES →
        ¬ (k = adjK c f ∧ f' = oppositeFace f) →
        EFace m₀ (done ++ [(c, f)]) k f' = EFace m₀ done k f' := by
      intro k f' hf'h hne
      rw [EFace, EFace]
      by_cases hP : ((adjK k f', oppositeFace f') : Key × Nat) = (c, f)
      · exfalso
        obtain ⟨hk, hff⟩ := rev_unique hf hf'h (congrArg Prod.snd hP) (congrArg Prod.fst hP)
        exact hne ⟨hk, hff⟩
      · have hmm : ((adjK k f', oppositeFace f') ∈ done ++ [(c, f)]) ↔
            ((adjK k f', oppositeFace f') ∈ done) := by
          rw [List.mem_append, List.mem_singleton]
          exact ⟨fun h => h.resolve_right hP, Or.inl⟩
        simp only [hmm]
    -- membership of the written face's operation in the extended done list
    have hmemD' : (((c, f) : Key × Nat)) ∈ done ++ [(c, f)] :=
      List.mem_append_right _ (List.mem_singleton.mpr rfl)
    -- the written-face target formula
    have hEtarget : EFace m₀ (done ++ [(c, f)]) (adjK c f) (oppositeFace f) =
        if c ∈ jKeys m₀ ∧ adjK c f ∈ jKeys m₀ ∧ openS (faceAt m₀ c f)
        then faceAt m₀ c f else faceAt m₀ (adjK c f) (oppositeFace f) := by
      rw [EFace]
      simp only [adjK_opp hf, opp_opp hf]
      by_cases hcond : c ∈ jKeys m₀ ∧ adjK c f ∈ jKeys m₀ ∧ openS (faceAt m₀ c f)
      · rw [if_pos ⟨hcond.2.1, hmemD', hcond.1, hcond.2.2⟩, if_pos hcond]
      · rw [if_neg ?_, if_neg hcond]
        rintro ⟨h1, -, h3, h4⟩
        exact hcond ⟨h3, h1, h4⟩
    have hEold : EFace m₀ done (adjK c f) (oppositeFace f) =
        faceAt m₀ (adjK c f) (oppositeFace f) := by
      rw [EFace]
      simp only [adjK_opp hf, opp_opp hf]
      rw [if_neg ?_]
      rintro ⟨-, hmem, -, -⟩
      exact hni hmem
    -- non-horizontal faces are never written
    have hnh1 : ∀ k f', f' ∉ HORIZONTAL_FACES →
        faceAt (faceStep m c f) k f' = faceAt m₀ k f' := by
      intro k f' hf'h
      have hne : ¬ (k = adjK c f ∧ f' = oppositeFace f) := by
        rintro ⟨-, rfl⟩
        exact hf'h (opp_mem_horiz hf)
      rw [faceStep_unchanged hcoh hsh hf c k f' hne]
      exact hnh k f' hf'h
    -- horizontal faces satisfy the extended characterization
    have hhor1 : ∀ k f', f' ∈ HORIZONTAL_FACES →
        faceAt (faceStep m c f) k f' = EFace m₀ (done ++ [(c, f)]) k f' := by
      intro k f' hf'h
      by_cases hkf : k = adjK c f ∧ f' = oppositeFace f
      · obtain ⟨rfl, rfl⟩ := hkf
        rcases faceStep_split hcoh hf c with ⟨heq, hwhy⟩ | ⟨cc, nb, hc, hnb, ho, heq⟩
        · -- identity step: show the extended formula also gives the old value
          rw [heq, hhor _ _ hf'h, hEold, hEtarget]
          by_cases hcond : c ∈ jKeys m₀ ∧ adjK c f ∈ jKeys m₀ ∧ openS (faceAt m₀ c f)
          · exfalso
            rcases hwhy with hw | hw | hw
            · obtain ⟨v, hv⟩ := mem_jKeys (hkeys ▸ hcond.1)
              rw [hv] at hw; exact Option.noConfusion hw
            · obtain ⟨v, hv⟩ := mem_jKeys (hkeys ▸ hcond.2.1)
              rw [hv] at hw; exact Option.noConfusion hw
            · rw [hhor c f hf, EFace] at hw
              by_cases hc2 : c ∈ jKeys m₀ ∧ (adjK c f, oppositeFace f) ∈ done ∧
                  adjK c f ∈ jKeys m₀ ∧ openS (faceAt m₀ (adjK c f) (oppositeFace f))
              · rw [if_pos hc2] at hw
                exact hw hc2.2.2.2
              · rw [if_neg hc2] at hw
                exact hw hcond.2.2
          · rw [if_neg hcond]
        · -- write step: the written value is the current source face
          have hwr : faceAt (faceStep m c f) (adjK c f) (oppositeFace f) = faceAt m c f := by
            rw [heq, faceAt_jSet_self]
            show (nb.faceOptions.set (oppositeFace f) (cc.faceOptions.getD f [])).getD
                (oppositeFace f) [] = faceAt m c f
            rw [getD_set_self _ _ _ (by rw [shape_get hsh hnb]; exact opp_lt_6 hf)]
            exact (faceAt_eq_of_get hc f).symm
          rw [hwr, hhor c f hf, hEtarget]
          have hcK : c ∈ jKeys m₀ := hkeys ▸ jGet?_mem hc
          have hnbK : adjK c f ∈ jKeys m₀ := hkeys ▸ jGet?_mem hnb
          have hoE : openS (EFace m₀ done c f) := by
            rw [← hhor c f hf]; exact ho
          rw [EFace] at hoE ⊢
          by_cases hBc : c ∈ jKeys m₀ ∧ (adjK c f, oppositeFace f) ∈ done ∧
              adjK c f ∈ jKeys m₀ ∧ openS (faceAt m₀ (adjK c f) (oppositeFace f))
          · rw [if_pos hBc] at hoE ⊢
            by_cases hA : openS (faceAt m₀ c f)
            · rw [if_pos ⟨hcK, hnbK, hA⟩]
              exact hH c hcK f hf hA hBc.2.2.2
            · rw [if_neg (fun hh => hA hh.2.2)]
          · rw [if_neg hBc] at hoE ⊢
            rw [if_pos ⟨hcK, hnbK, hoE⟩]
      · rw [faceStep_unchanged hcoh hsh hf c k f' hkf, hhor k f' hf'h,
          hunchanged k f' hf'h hkf]
    have hih := ih (done ++ [(c, f)]) (faceStep m c f)
      (fun op hop => hops op (List.mem_cons_of_mem _ hop))
      (by
        intro op hop
        rcases List.mem_append.mp hop with h | h
        · exact hdh op h
        · simp only [List.mem_singleton] at h; rw [h]; exact hf)
      (by rw [List.append_assoc]; exact hnd)
      hkeys1 hcoh1 hsh1 hfields1 hnh1 hhor1
    obtain ⟨d1, d2, d3, d4, d5, d6⟩ := hih
    refine ⟨d1, d2, d3, d4, d5, ?_⟩
    intro k f' hf'h
    rw [d6 k f' hf'h]
    have hassoc : (done ++ [(c, f)]) ++ ops = done ++ (c, f) :: ops := by
      rw [List.append_assoc]; rfl
    rw [hassoc]

/-- C4 amended: on a well-formed resolved chunk in which no shared face
collapsed to two different open ids on its two sides, the neighbor-repair
pass is order-independent: any two duplicate-free visitation orders
covering the chunk's cells produce the same final chunk.  (As shown by
the counterexample, without the no-divergence condition the result does
depend on the order.) -/
theorem c4_order_independent_no_divergence (m : JMap Cell) (hcoh : Coh m) (hsh : Shape6 m)
    (hnd : (jKeys m).Nodup) (hH : NoDiverge m) (o₁ o₂ : List Key) (h₁ : o₁.Nodup)
    (h₂ : o₂.Nodup) (hm₁ : ∀ k, k ∈ o₁ ↔ k ∈ jKeys m) (hm₂ : ∀ k, k ∈ o₂ ↔ k ∈ jKeys m) :
    repairWithOrder o₁ m = repairWithOrder o₂ m := by
  have hbase : ∀ k f', f' ∈ HORIZONTAL_FACES → faceAt m k f' = EFace m [] k f' := by
    intro k f' _
    rw [EFace, if_neg]
    rintro ⟨-, hmem, -, -⟩
    simp at hmem
  have hcanon : ∀ (o : List Key), o.Nodup →
      jKeys (repairWithOrder o m) = jKeys m ∧
      (∀ k c₀ c, jGet? m k = some c₀ → jGet? (repairWithOrder o m) k = some c →
        c.position = c₀.position ∧ c.size = c₀.size ∧ c.faceStates = c₀.faceStates ∧
        c.faceOptions.length = c₀.faceOptions.length) ∧
      (∀ k f', f' ∉ HORIZONTAL_FACES → faceAt (repairWithOrder o m) k f' = faceAt m k f') ∧
      (∀ k f', f' ∈ HORIZONTAL_FACES →
        faceAt (repairWithOrder o m) k f' = EFace m (orderOps o) k f') := by
    intro o ho
    rw [repairWithOrder_eq_opsFold]
    obtain ⟨d1, -, -, d4, d5, d6⟩ := opsFold_canon hH (orderOps o) [] m orderOps_horiz
      (by simp) (by simpa using orderOps_nodup ho) rfl hcoh hsh
      (fun k c₀ c h1 h2 => by rw [h1] at h2; injection h2 with h2; rw [h2]; exact ⟨rfl, rfl, rfl, rfl⟩)
      (fun k f' _ => rfl) hbase
    exact ⟨d1, d4, d5, by simpa using d6⟩
  obtain ⟨k1, f1, n1, h1'⟩ := hcanon o₁ h₁
  obtain ⟨k2, f2, n2, h2'⟩ := hcanon o₂ h₂
  have hEeq : ∀ k f', f' ∈ HORIZONTAL_FACES →
      EFace m (orderOps o₁) k f' = EFace m (orderOps o₂) k f' := by
    intro k f' hf'
    rw [EFace, EFace]
    have hiff : ((adjK k f', oppositeFace f') ∈ orderOps o₁) ↔
        ((adjK k f', oppositeFace f') ∈ orderOps o₂) := by
      rw [mem_orderOps, mem_orderOps, hm₁, hm₂]
    simp only [hiff]
  refine jMap_ext (k1.trans k2.symm) (by rw [k1]; exact hnd) ?_
  intro k
  by_cases hk : k ∈ jKeys m
  · obtain ⟨c₀, hc₀⟩ := mem_jKeys hk
    obtain ⟨c1, hc1⟩ := mem_jKeys (show k ∈ jKeys (repairWithOrder o₁ m) by rw [k1]; exact hk)
    obtain ⟨c2, hc2⟩ := mem_jKeys (show k ∈ jKeys (repairWithOrder o₂ m) by rw [k2]; exact hk)
    obtain ⟨p1, s1, st1, l1⟩ := f1 k c₀ c1 hc₀ hc1
    obtain ⟨p2, s2, st2, l2⟩ := f2 k c₀ c2 hc₀ hc2
    have hc0len : c₀.faceOptions.length = 6 := shape_get hsh hc₀
    have hfaces : c1.faceOptions = c2.faceOptions := by
      refine listEq6 (by rw [l1, hc0len]) (by rw [l2, hc0len]) ?_
      intro i hi
      have e1 : c1.faceOptions.getD i [] = faceAt (repairWithOrder o₁ m) k i :=
        (faceAt_eq_of_get hc1 i).symm
      have e2 : c2.faceOptions.getD i [] = faceAt (repairWithOrder o₂ m) k i :=
        (faceAt_eq_of_get hc2 i).symm
      rw [e1, e2]
      by_cases hih : i ∈ HORIZONTAL_FACES
      · rw [h1' k i hih, h2' k i hih, hEeq k i hih]
      · rw [n1 k i hih, n2 k i hih]
    rw [hc1, hc2]
    exact congrArg some (cell_ext (p1.trans p2.symm) (s1.trans s2.symm)
      (st1.trans st2.symm) hfaces)
  · rw [jGet?_eq_none (by rw [k1]; exact hk), jGet?_eq_none (by rw [k2]; exact hk)]

/-- Witness for C4 amended: on the non-divergent chunk of a concrete
run, the insertion order and its reverse agree. -/
theorem c4_witness :
    NoDiverge (preRepair 3 1 2 (fun _ => 0)) ∧
    repairWithOrder (jKeys (preRepair 3 1 2 (fun _ => 0))) (preRepair 3 1 2 (fun _ => 0)) =
      repairWithOrder (jKeys (preRepair 3 1 2 (fun _ => 0))).reverse
        (preRepair 3 1 2 (fun _ => 0)) :=
  ⟨by decide,
    c4_order_independent_no_divergence (preRepair 3 1 2 (fun _ => 0))
      (by decide) (by decide) (by decide) (by decide)
      (jKeys (preRepair 3 1 2 (fun _ => 0))) (jKeys (preRepair 3 1 2 (fun _ => 0))).reverse
      (by decide) (by decide) (fun k => Iff.rfl) (fun k => List.mem_reverse)⟩

/-- C9: the neighbor-repair pass is idempotent: for every well-formed
chunk (cells keyed by their own positions, six face lists each, distinct
keys), a chunk on which the pass has already run once is a fixed point
of the pass, so a second run changes no cell's faceOptions. -/
theorem c9_repair_idempotent (m : JMap Cell) (hcoh : Coh m) (hsh : Shape6 m)
    (hnd : (jKeys m).Nodup) : repairPass (repairPass m) = repairPass m :=
  repairPass_idempotent m hcoh hsh hnd

/-- Witness for C9 on a concretely generated chunk. -/
theorem c9_witness :
    Coh (preRepair 3 1 2 (fun _ => 0)) ∧ Shape6 (preRepair 3 1 2 (fun _ => 0)) ∧
    (jKeys (preRepair 3 1 2 (fun _ => 0))).Nodup ∧
    repairPass (repairPass (preRepair 3 1 2 (fun _ => 0))) =
      repairPass (preRepair 3 1 2 (fun _ => 0)) :=
  ⟨by decide, by decide, by decide,
    c9_repair_idempotent _ (by decide) (by decide) (by decide)⟩

/-- C2: two runs of `generateCascade` with the same grid dimensions,
target and an identical random stream (the explicit model of the seeded
random source) produce identical resolved chunks and identical collapse
orders.  The ambient `Math.random` of the JS source is the stream
parameter here, so runs that see the same draw sequence agree exactly. -/
theorem c2_seed_determinism (gridX gridZ targetCells : Nat) (g₁ g₂ : Nat → Nat)
    (h : ∀ n, g₁ n = g₂ n) :
    (generateCascade gridX gridZ targetCells g₁).collapsedCells =
      (generateCascade gridX gridZ targetCells g₂).collapsedCells ∧
    (generateCascade gridX gridZ targetCells g₁).collapseOrder =
      (generateCascade gridX gridZ targetCells g₂).collapseOrder := by
  have hg : g₁ = g₂ := funext h
  subst hg
  exact ⟨rfl, rfl⟩

/-- Witness for C2 at concrete inputs. -/
theorem c2_witness :
    (generateCascade 3 3 4 (fun _ => 0)).collapsedCells =
      (generateCascade 3 3 4 (fun _ => 0)).collapsedCells ∧
    (generateCascade 3 3 4 (fun _ => 0)).collapseOrder =
      (generateCascade 3 3 4 (fun _ => 0)).collapseOrder :=
  c2_seed_determinism 3 3 4 (fun _ => 0) (fun _ => 0) (fun _ => rfl)

/-! ## Claim C3: the fill pass can stop short of the reachable target -/

/-- C3 failing input: on a 7-by-1 grid with target 7 and the all-zeros
random stream, `generateCascade` connects only 6 cells although the
connected cell `(-2, 0)` still has the unconnected in-domain neighbor
`(-3, 0)` across its NEG_X face: the single left-to-right iteration of
the fill pass never revisits cells it connected after passing them, so
neither disjunct of the claimed postcondition holds. -/
theorem c3_fill_pass_gap :
    (generateCascade 7 1 7 (fun _ => 0)).collapsedCells.length = 6 ∧
    min 7 (7 * 1) = 7 ∧
    (((-2 : Int), (0 : Int)) : Key) ∈ jKeys (generateCascade 7 1 7 (fun _ => 0)).collapsedCells ∧
    (((-3 : Int), (0 : Int)) : Key) ∉ jKeys (generateCascade 7 1 7 (fun _ => 0)).collapsedCells ∧
    inBounds (generateCascade 7 1 7 (fun _ => 0)).halfX
      (generateCascade 7 1 7 (fun _ => 0)).halfZ (-3) 0 = true ∧
    adjK ((-2 : Int), (0 : Int)) 1 = ((-3 : Int), (0 : Int)) := by decide

/-! ## Claim C4: order-dependence of the neighbor-repair pass -/

/-- A random stream under which the single carved edge of a 3-by-1,
target-2 run collapses to open id 0 on the center side and open id 1
on the neighbor side. -/
def divergeStream : Nat → Nat := fun n => [0, 0, 0, 0, 0, 0, 0, 0, 0, 1, 1, 0, 0, 0].getD n 0

/-- C4 counterexample: on the chunk produced by Phase 3 of
`generateCascade 3 1 2 divergeStream` (whose carved edge collapsed to
two different open ids), the repair pass run in the map's own insertion
order and run in the reversed order yield different final chunks, so the
pass is not order-independent. -/
theorem c4_order_dependent :
    repairWithOrder (jKeys (preRepair 3 1 2 divergeStream)) (preRepair 3 1 2 divergeStream) ≠
      repairWithOrder (jKeys (preRepair 3 1 2 divergeStream)).reverse
        (preRepair 3 1 2 divergeStream) := by decide

/-! ## Claim C6: size bound -/

/-- C6 counterexample: with target 0 the clamped target is 0, yet the
origin cell is collapsed unconditionally before the target check, so the
returned chunk has 1 cell, exceeding `min targetCells (gridX * gridZ)`. -/
theorem c6_size_counterexample :
    (generateCascade 1 1 0 (fun _ => 0)).collapsedCells.length = 1 ∧
    ¬ ((generateCascade 1 1 0 (fun _ => 0)).collapsedCells.length ≤ min 0 (1 * 1)) := by
  decide

/-! ## Claim C8: empty face options versus faceStates bits -/

/-- C8 counterexample: `createCell` leaves both vertical face-option
lists empty while setting `faceStates = 0b111111`, so the empty sequence
at face index 2 coexists with bit 2 being 1, not 0 as claimed. -/
theorem c8_empty_face_counterexample :
    (createCell 0 0 0).faceOptions.getD 2 [] = [] ∧
    Nat.testBit (createCell 0 0 0).faceStates 2 = true := by decide

/-! ## Claim C7: findPath correctness -/

/-- Membership form of `Map.prototype.has`. -/
theorem jHas_iff {β : Type} {m : JMap β} {k : Key} : jHas m k = true ↔ k ∈ jKeys m := by
  constructor
  · intro h
    unfold jHas at h
    cases hc : jGet? m k with
    | none => rw [hc] at h; simp at h
    | some v => exact jGet?_mem hc
  · intro h
    obtain ⟨v, hv⟩ := mem_jKeys h
    unfold jHas
    rw [hv]
    rfl

/-- The boolean open test agrees with the propositional one. -/
theorem openSingleB_iff {l : List Nat} : openSingleB l = true ↔ openS l := by
  simp [openSingleB, openS, OPEN_IDS]

/-- On a coherent map the stored position projects back to the key. -/
theorem coh_pos {m : JMap Cell} {k : Key} {c : Cell} (hc : Coh m)
    (h : jGet? m k = some c) : ((c.position.1 : Int), c.position.2.2) = k := by
  rw [coh_get hc h]

/-- A valid maze path from `s` to `t`: starts at `s`, ends at `t`, stays
inside the chunk, and each consecutive pair of cells is open-adjacent
(grid neighbors with the earlier cell's shared face resolved to a single
open id) — the step relation traversed by `findPath`. -/
def ValidPath (m : JMap Cell) (s t : Key) (p : List Key) : Prop :=
  p.head? = some s ∧ p.getLast? = some t ∧ (∀ x ∈ p, x ∈ jKeys m) ∧ p.Chain' (openAdj m)

/-- A valid path is nonempty. -/
theorem valid_ne_nil {m : JMap Cell} {s t : Key} {p : List Key}
    (h : ValidPath m s t p) : p ≠ [] := by
  intro he
  rw [he] at h
  exact Option.noConfusion h.1

/-- A valid path has at least one node. -/
theorem valid_one_le {m : JMap Cell} {s t : Key} {p : List Key}
    (h : ValidPath m s t p) : 1 ≤ p.length := by
  have := valid_ne_nil h
  cases p with
  | nil => exact absurd rfl this
  | cons a l => simp

/-- A one-node valid path forces its endpoints to agree. -/
theorem valid_len_one {m : JMap Cell} {s t : Key} {p : List Key}
    (h : ValidPath m s t p) (hl : p.length = 1) : s = t := by
  cases p with
  | nil => simp at hl
  | cons a l =>
    cases l with
    | nil =>
      have h1 : s = a := by
        have := h.1
        simp at this
        exact this.symm
      have h2 : t = a := by
        have := h.2.1
        simp at this
        exact this.symm
      rw [h1, h2]
    | cons b l' => simp at hl

/-- The one-node path at a chunk key is valid. -/
theorem valid_singleton {m : JMap Cell} {s : Key} (hs : s ∈ jKeys m) :
    ValidPath m s s [s] := by
  refine ⟨rfl, rfl, ?_, List.chain'_singleton s⟩
  intro x hx
  rw [List.mem_singleton] at hx
  rw [hx]
  exact hs

/-- Extending a valid path by one open-adjacent step keeps it valid. -/
theorem valid_snoc {m : JMap Cell} {s u w : Key} {p : List Key}
    (h : ValidPath m s u p) (hw : openAdj m u w) : ValidPath m s w (p ++ [w]) := by
  obtain ⟨h1, h2, h3, h4⟩ := h
  have hne : p ≠ [] := by
    intro he
    rw [he] at h1
    exact Option.noConfusion h1
  refine ⟨?_, ?_, ?_, ?_⟩
  · rw [List.head?_append_of_ne_nil _ hne]
    exact h1
  · exact List.getLast?_concat p
  · intro x hx
    rcases List.mem_append.mp hx with hx | hx
    · exact h3 x hx
    · rw [List.mem_singleton] at hx
      rw [hx]
      exact hw.2.1
  · rw [List.chain'_append]
    refine ⟨h4, List.chain'_singleton w, ?_⟩
    intro x hx y hy
    rw [Option.mem_def, h2, Option.some_inj] at hx
    rw [Option.mem_def] at hy
    simp only [List.head?_cons, Option.some_inj] at hy
    rw [← hx, ← hy]
    exact hw

/-- A valid path of length at least two splits into a valid path to the
last intermediate node followed by one open-adjacent step. -/
theorem valid_decomp {m : JMap Cell} {s t : Key} {p : List Key}
    (h : ValidPath m s t p) (hl : 2 ≤ p.length) :
    ∃ q u, p = q ++ [t] ∧ ValidPath m s u q ∧ openAdj m u t ∧ q.length + 1 = p.length := by
  obtain ⟨h1, h2, h3, h4⟩ := h
  have hne : p ≠ [] := by
    intro he
    rw [he] at hl
    simp at hl
  have hpe : p.dropLast ++ [p.getLast hne] = p := List.dropLast_append_getLast hne
  have hlast : p.getLast hne = t := by
    have := List.getLast?_eq_getLast p hne
    rw [h2] at this
    exact (Option.some_inj.mp this).symm
  have hqne : p.dropLast ≠ [] := by
    have hld : p.dropLast.length = p.length - 1 := List.length_dropLast p
    intro he
    rw [he] at hld
    simp at hld
    omega
  have hq2 : p.dropLast.getLast? = some (p.dropLast.getLast hqne) :=
    List.getLast?_eq_getLast _ hqne
  refine ⟨p.dropLast, p.dropLast.getLast hqne, ?_, ⟨?_, hq2, ?_, ?_⟩, ?_, ?_⟩
  · rw [← hlast]
    exact hpe.symm
  · rw [← hpe, List.head?_append_of_ne_nil _ hqne] at h1
    exact h1
  · intro x hx
    exact h3 x (List.mem_of_mem_dropLast hx)
  · rw [← hpe, List.chain'_append] at h4
    exact h4.1
  · rw [← hpe, List.chain'_append] at h4
    refine h4.2.2 _ ?_ t ?_
    · rw [Option.mem_def]
      exact hq2
    · rw [← hlast]
      rfl
  · have hld : p.dropLast.length = p.length - 1 := List.length_dropLast p
    omega

/-- Every node on a valid path is itself the endpoint of a valid path no
longer than the original. -/
theorem valid_through {m : JMap Cell} {s : Key} :
    ∀ (n : Nat) (p : List Key) (w x : Key), p.length ≤ n → ValidPath m s w p → x ∈ p →
    ∃ q, ValidPath m s x q ∧ q.length ≤ p.length := by
  intro n
  induction n with
  | zero =>
    intro p w x hl hv hx
    have := valid_one_le hv
    omega
  | succ n ih =>
    intro p w x hl hv hx
    by_cases hlw : p.getLast? = some x
    · have hwx : w = x := by
        have := hv.2.1
        rw [this] at hlw
        exact Option.some_inj.mp hlw
      exact ⟨p, hwx ▸ hv, le_rfl⟩
    · have h2 : 2 ≤ p.length := by
        rcases Nat.lt_or_ge p.length 2 with hlt | hge
        · exfalso
          have h1 : p.length = 1 := by
            have := valid_one_le hv
            omega
          cases p with
          | nil => simp at h1
          | cons a l =>
            cases l with
            | nil =>
              rw [List.mem_singleton] at hx
              rw [hx] at hlw
              exact hlw rfl
            | cons b l' => simp at h1
        · exact hge
      obtain ⟨q, u, hpe, hq, hstep, hlen⟩ := valid_decomp hv h2
      have hxq : x ∈ q := by
        rw [hpe] at hx
        rcases List.mem_append.mp hx with hx | hx
        · exact hx
        · exfalso
          rw [List.mem_singleton] at hx
          rw [hpe, List.getLast?_concat, hx] at hlw
          exact hlw rfl
      obtain ⟨q₁, hq₁, hle⟩ := ih q u x (by omega) hq hxq
      exact ⟨q₁, hq₁, by omega⟩

/-- A duplicate-free list included in another list is no longer than it. -/
theorem nodup_subset_length {l l' : List Key} (h : l.Nodup) (hs : l ⊆ l') :
    l.length ≤ l'.length := by
  classical
  calc l.length = l.toFinset.card := (List.toFinset_card_of_nodup h).symm
    _ ≤ l'.toFinset.card := Finset.card_le_card (fun x hx => by
        rw [List.mem_toFinset] at hx ⊢
        exact hs hx)
    _ ≤ l'.length := List.toFinset_card_le l'

/-- When the face scan returns a found path it is the popped path
extended by the goal, reached through some open face of the scan. -/
theorem stepFaces_inl {m : JMap Cell} {t : Key} {path : List Key} {pos : Int × Int}
    {cell : Cell} :
    ∀ (faces : List Nat) (vis : List Key) (q : List (List Key)) (r : List Key),
    stepFaces m t path pos cell faces vis q = Sum.inl r →
    r = path ++ [t] ∧ ∃ f ∈ faces, openSingleB (cell.faceOptions.getD f []) = true ∧
      ((pos.1 + faceDX f, pos.2 + faceDZ f) : Key) = t := by
  intro faces
  induction faces with
  | nil =>
    intro vis q r h
    simp [stepFaces] at h
  | cons f fs ih =>
    intro vis q r h
    simp only [stepFaces] at h
    split at h
    · split at h
      · rename_i he
        rw [Sum.inl.injEq] at h
        refine ⟨?_, f, List.mem_cons_self f fs, by assumption, he⟩
        rw [← h, he]
      · split at h
        · obtain ⟨hr, f', hf', ho', he'⟩ := ih _ _ _ h
          exact ⟨hr, f', List.mem_cons_of_mem f hf', ho', he'⟩
        · obtain ⟨hr, f', hf', ho', he'⟩ := ih _ _ _ h
          exact ⟨hr, f', List.mem_cons_of_mem f hf', ho', he'⟩
    · obtain ⟨hr, f', hf', ho', he'⟩ := ih _ _ _ h
      exact ⟨hr, f', List.mem_cons_of_mem f hf', ho', he'⟩

/-- When the face scan falls through, the visited list and the queue
grow by a block of fresh keys, one per newly discovered open neighbor;
moreover every open face of the scanned cell misses the goal and leads
to a key that is now visited whenever it is in the chunk. -/
theorem stepFaces_inr {m : JMap Cell} {t : Key} {path : List Key} {pos : Int × Int}
    {cell : Cell} :
    ∀ (faces : List Nat) (vis : List Key) (q : List (List Key))
      (vis' : List Key) (q' : List (List Key)),
    stepFaces m t path pos cell faces vis q = Sum.inr (vis', q') →
    ∃ ws : List Key,
      vis' = vis ++ ws ∧
      q' = q ++ ws.map (fun w => path ++ [w]) ∧
      ws.Nodup ∧
      (∀ w ∈ ws, w ∉ vis ∧ jHas m w = true ∧ w ≠ t ∧
        ∃ f ∈ faces, openSingleB (cell.faceOptions.getD f []) = true ∧
          w = ((pos.1 + faceDX f, pos.2 + faceDZ f) : Key)) ∧
      (∀ f ∈ faces, openSingleB (cell.faceOptions.getD f []) = true →
        ((pos.1 + faceDX f, pos.2 + faceDZ f) : Key) ≠ t ∧
        (jHas m (pos.1 + faceDX f, pos.2 + faceDZ f) = true →
          ((pos.1 + faceDX f, pos.2 + faceDZ f) : Key) ∈ vis ++ ws)) := by
  intro faces
  induction faces with
  | nil =>
    intro vis q vis' q' h
    simp only [stepFaces, Sum.inr.injEq, Prod.mk.injEq] at h
    obtain ⟨h1, h2⟩ := h
    refine ⟨[], by rw [← h1, List.append_nil], by rw [← h2]; simp, List.nodup_nil, ?_, ?_⟩
    · intro w hw
      simp at hw
    · intro f hf
      simp at hf
  | cons f fs ih =>
    intro vis q vis' q' h
    simp only [stepFaces] at h
    split at h
    · rename_i ho
      split at h
      · exact absurd h (by simp)
      · rename_i he
        split at h
        · rename_i hc
          rw [Bool.and_eq_true, decide_eq_true_iff] at hc
          obtain ⟨ws', hv, hq, hnd, hw, hcomp⟩ := ih _ _ _ _ h
          refine ⟨((pos.1 + faceDX f, pos.2 + faceDZ f) : Key) :: ws', ?_, ?_, ?_, ?_, ?_⟩
          · rw [hv, List.append_assoc]
            rfl
          · rw [hq, List.append_assoc]
            rfl
          · rw [List.nodup_cons]
            refine ⟨?_, hnd⟩
            intro hmem
            exact (hw _ hmem).1 (List.mem_append_right vis (by simp))
          · intro w hwm
            rcases List.mem_cons.mp hwm with hwm | hwm
            · exact hwm ▸ ⟨hc.2, hc.1, he, f, List.mem_cons_self f fs, ho, rfl⟩
            · obtain ⟨hnv, hh, hnt, f', hf', ho', he'⟩ := hw w hwm
              exact ⟨fun hx => hnv (List.mem_append_left _ hx), hh, hnt, f',
                List.mem_cons_of_mem f hf', ho', he'⟩
          · intro f₁ hf₁ ho₁
            rcases List.mem_cons.mp hf₁ with hf₁ | hf₁
            · subst hf₁
              exact ⟨he, fun _ => List.mem_append_right vis (by simp)⟩
            · obtain ⟨hnt₁, hmem₁⟩ := hcomp f₁ hf₁ ho₁
              refine ⟨hnt₁, fun hh => ?_⟩
              have := hmem₁ hh
              rw [List.append_assoc] at this
              exact this
        · rename_i hc
          rw [Bool.and_eq_true] at hc
          obtain ⟨ws, hv, hq, hnd, hw, hcomp⟩ := ih _ _ _ _ h
          refine ⟨ws, hv, hq, hnd, ?_, ?_⟩
          · intro w hwm
            obtain ⟨hnv, hh, hnt, f', hf', ho', he'⟩ := hw w hwm
            exact ⟨hnv, hh, hnt, f', List.mem_cons_of_mem f hf', ho', he'⟩
          · intro f₁ hf₁ ho₁
            rcases List.mem_cons.mp hf₁ with hf₁ | hf₁
            · subst hf₁
              refine ⟨he, fun hh => ?_⟩
              have hin : ((pos.1 + faceDX f₁, pos.2 + faceDZ f₁) : Key) ∈ vis := by
                by_contra hnot
                exact hc ⟨hh, decide_eq_true hnot⟩
              exact List.mem_append_left ws hin
            · exact hcomp f₁ hf₁ ho₁
    · rename_i ho
      obtain ⟨ws, hv, hq, hnd, hw, hcomp⟩ := ih _ _ _ _ h
      refine ⟨ws, hv, hq, hnd, ?_, ?_⟩
      · intro w hwm
        obtain ⟨hnv, hh, hnt, f', hf', ho', he'⟩ := hw w hwm
        exact ⟨hnv, hh, hnt, f', List.mem_cons_of_mem f hf', ho', he'⟩
      · intro f₁ hf₁ ho₁
        rcases List.mem_cons.mp hf₁ with hf₁ | hf₁
        · subst hf₁
          exact absurd ho₁ ho
        · exact hcomp f₁ hf₁ ho₁

/-- The endpoint of every queued path, as read off by the loop's
`path[path.length - 1]`. -/
def qLasts (s : Key) (queue : List (List Key)) : List Key :=
  queue.map (fun p => p.getLastD s)

/-- A nonempty list's `getLastD` is its `getLast?` value. -/
theorem lastD_eq {p : List Key} {u : Key} (h : p.getLast? = some u) (d : Key) :
    p.getLastD d = u := by
  rw [List.getLastD_eq_getLast?, h]
  rfl

/-- Loop invariant of the BFS in `findPath`, tying the queue and the
visited list to the valid paths of the chunk: queued paths are valid,
shortest to their endpoints, sorted by length with spread at most one;
visited non-frontier nodes are fully expanded; unvisited nodes are at
least one step farther than the queue head. -/
structure BfsInv (m : JMap Cell) (s t : Key) (queue : List (List Key))
    (vis : List Key) : Prop where
  vis_sub : ∀ v ∈ vis, v ∈ jKeys m
  vis_nd : vis.Nodup
  s_mem : s ∈ vis
  t_not : t ∉ vis
  q_path : ∀ p ∈ queue, ∃ u, p.getLast? = some u ∧ u ∈ vis ∧ ValidPath m s u p
  q_short : ∀ p ∈ queue, ∀ u, p.getLast? = some u → ∀ r, ValidPath m s u r →
    p.length ≤ r.length
  q_lasts_nd : (qLasts s queue).Nodup
  q_sorted : (queue.map List.length).Pairwise (· ≤ ·)
  q_spread : ∀ p₀ ∈ queue.head?, ∀ p ∈ queue, p.length ≤ p₀.length + 1
  expanded : ∀ v ∈ vis, v ∉ qLasts s queue → ∀ f ∈ HORIZONTAL_FACES,
    openS (faceAt m v f) → adjK v f ≠ t ∧ (adjK v f ∈ jKeys m → adjK v f ∈ vis)
  frontier : ∀ p₀ ∈ queue.head?, ∀ w, w ∉ vis → ∀ r, ValidPath m s w r →
    p₀.length + 1 ≤ r.length

/-- With an empty queue every valid path avoiding the goal ends in the
visited set: all visited nodes are fully expanded. -/
theorem bfs_closed {m : JMap Cell} {s t : Key} {vis : List Key}
    (inv : BfsInv m s t [] vis) :
    ∀ (n : Nat) (r : List Key) (w : Key), r.length ≤ n → ValidPath m s w r → t ∉ r →
    w ∈ vis := by
  intro n
  induction n with
  | zero =>
    intro r w hl hv hnt
    have := valid_one_le hv
    omega
  | succ n ih =>
    intro r w hl hv hnt
    by_cases h2 : 2 ≤ r.length
    · obtain ⟨q₀, u, hre, hq₀, hstep, hlen⟩ := valid_decomp hv h2
      have hu : u ∈ vis := by
        refine ih q₀ u (by omega) hq₀ (fun ht' => hnt ?_)
        rw [hre]
        exact List.mem_append_left _ ht'
      obtain ⟨_, hwk, f, hf, hwe, hopen⟩ := hstep
      have hexp := inv.expanded u hu (by simp [qLasts]) f hf hopen
      rw [← hwe] at hexp
      exact hexp.2 hwk
    · have h1 : r.length = 1 := by
        have := valid_one_le hv
        omega
      have := valid_len_one hv h1
      rw [← this]
      exact inv.s_mem

/-- With an empty queue no valid path reaches the goal at all. -/
theorem bfs_empty_no_path {m : JMap Cell} {s t : Key} {vis : List Key}
    (inv : BfsInv m s t [] vis) : ∀ r, ¬ ValidPath m s t r := by
  suffices h : ∀ (n : Nat) (r : List Key), r.length ≤ n → ¬ ValidPath m s t r by
    exact fun r hr => h r.length r le_rfl hr
  intro n
  induction n with
  | zero =>
    intro r hl hv
    have := valid_one_le hv
    omega
  | succ n ih =>
    intro r hl hv
    by_cases h2 : 2 ≤ r.length
    · obtain ⟨q₀, u, hre, hq₀, hstep, hlen⟩ := valid_decomp hv h2
      by_cases htq : t ∈ q₀
      · obtain ⟨q₁, hq₁, hle⟩ := valid_through q₀.length q₀ u t le_rfl hq₀ htq
        exact ih q₁ (by omega) hq₁
      · have hu : u ∈ vis := bfs_closed inv q₀.length q₀ u le_rfl hq₀ htq
        obtain ⟨_, htk, f, hf, hte, hopen⟩ := hstep
        exact ((inv.expanded u hu (by simp [qLasts])) f hf hopen).1 hte.symm
    · have h1 : r.length = 1 := by
        have := valid_one_le hv
        omega
      have := valid_len_one hv h1
      exact inv.t_not (this ▸ inv.s_mem)

/-- The invariant holds on the initial queue and visited list. -/
theorem bfs_init_inv {m : JMap Cell} {s t : Key} (hs : s ∈ jKeys m) (hst : s ≠ t) :
    BfsInv m s t [[s]] [s] := by
  refine ⟨?_, ?_, ?_, ?_, ?_, ?_, ?_, ?_, ?_, ?_, ?_⟩
  · intro v hv
    rw [List.mem_singleton] at hv
    rw [hv]
    exact hs
  · simp
  · simp
  · simp [Ne.symm hst]
  · intro p hp
    rw [List.mem_singleton] at hp
    exact ⟨s, by rw [hp]; rfl, by simp, hp ▸ valid_singleton hs⟩
  · intro p hp u hu r hr
    rw [List.mem_singleton] at hp
    rw [hp]
    exact valid_one_le hr
  · simp [qLasts]
  · simp
  · intro p₀ hp₀ p hp
    rw [Option.mem_def] at hp₀
    simp at hp₀
    rw [List.mem_singleton] at hp
    rw [hp, ← hp₀]
    simp
  · intro v hv hvl
    exfalso
    rw [List.mem_singleton] at hv
    exact hvl (by simp [qLasts, hv])
  · intro p₀ hp₀ w hw r hr
    rw [Option.mem_def] at hp₀
    simp at hp₀
    rw [← hp₀]
    rcases Nat.lt_or_ge r.length 2 with hlt | hge
    · exfalso
      have h1 : r.length = 1 := by
        have := valid_one_le hr
        omega
      have := valid_len_one hr h1
      exact hw (by rw [← this]; simp)
    · simpa using hge

/-- A constant-valued map is sorted. -/
theorem pairwise_const_le (l : List Key) (c : Nat) :
    (l.map (fun _ => c)).Pairwise (fun a b => a ≤ b) := by
  induction l with
  | nil => simp
  | cons a l ih =>
    rw [List.map_cons]
    refine List.Pairwise.cons ?_ ih
    intro b hb
    obtain ⟨x, _, hx⟩ := List.mem_map.mp hb
    omega

/-- One BFS iteration preserves the loop invariant: popping the head
path and appending the block of freshly discovered neighbors (as
described by `stepFaces_inr`, here translated to `openS`/`adjK` form)
yields an invariant state again. -/
theorem bfs_step_inv {m : JMap Cell} {s t : Key} {p : List Key}
    {rest : List (List Key)} {vis : List Key}
    (inv : BfsInv m s t (p :: rest) vis)
    {u : Key} (hlast : p.getLast? = some u)
    {ws : List Key}
    (hwnd : ws.Nodup)
    (hwprop : ∀ w ∈ ws, w ∉ vis ∧ w ∈ jKeys m ∧ w ≠ t ∧
      ∃ f ∈ HORIZONTAL_FACES, openS (faceAt m u f) ∧ w = adjK u f)
    (hcomp : ∀ f ∈ HORIZONTAL_FACES, openS (faceAt m u f) →
      adjK u f ≠ t ∧ (adjK u f ∈ jKeys m → adjK u f ∈ vis ++ ws)) :
    BfsInv m s t (rest ++ ws.map (fun w => p ++ [w])) (vis ++ ws) := by
  obtain ⟨u', hlast', huvis, hvalid⟩ := inv.q_path p (List.mem_cons_self p rest)
  have hueq : u = u' := by
    rw [hlast] at hlast'
    exact Option.some_inj.mp hlast'
  subst hueq
  have hpne : p ≠ [] := valid_ne_nil hvalid
  have hplen1 : 1 ≤ p.length := valid_one_le hvalid
  have hplast : p.getLastD s = u := lastD_eq hlast s
  have hqeq : qLasts s (p :: rest) = u :: qLasts s rest := by
    simp only [qLasts, List.map_cons]
    rw [hplast]
  have hlastsmap : qLasts s (rest ++ ws.map (fun w => p ++ [w])) = qLasts s rest ++ ws := by
    unfold qLasts
    rw [List.map_append, List.map_map]
    have h1 : ((fun q => q.getLastD s) ∘ fun w => p ++ [w]) =
        fun w => (p ++ [w]).getLastD s := rfl
    rw [h1]
    have h2 : ws.map (fun w => (p ++ [w]).getLastD s) = ws.map id :=
      List.map_congr_left (fun w _ => List.getLastD_concat s w p)
    rw [h2, List.map_id]
  have hrest_lasts_vis : ∀ x ∈ qLasts s rest, x ∈ vis := by
    intro x hx
    obtain ⟨p', hp', hpl⟩ := List.mem_map.mp hx
    obtain ⟨u₂, hl₂, hv₂, hval₂⟩ := inv.q_path p' (List.mem_cons_of_mem p hp')
    rw [← hpl, lastD_eq hl₂ s]
    exact hv₂
  have hws_not_vis : ∀ w ∈ ws, w ∉ vis := fun w hw => (hwprop w hw).1
  have hfr_old : ∀ w, w ∉ vis → ∀ r, ValidPath m s w r → p.length + 1 ≤ r.length :=
    fun w hw r hr => inv.frontier p (Option.mem_def.mpr rfl) w hw r hr
  have hspread_old : ∀ p' ∈ p :: rest, p'.length ≤ p.length + 1 :=
    fun p' hp' => inv.q_spread p (Option.mem_def.mpr rfl) p' hp'
  have hsorted_head : ∀ p' ∈ rest, p.length ≤ p'.length := by
    intro p' hp'
    have hso := inv.q_sorted
    rw [List.map_cons] at hso
    exact List.rel_of_pairwise_cons hso (List.mem_map_of_mem List.length hp')
  refine ⟨?_, ?_, ?_, ?_, ?_, ?_, ?_, ?_, ?_, ?_, ?_⟩
  · intro v hv
    rcases List.mem_append.mp hv with hv | hv
    · exact inv.vis_sub v hv
    · exact (hwprop v hv).2.1
  · refine List.Nodup.append inv.vis_nd hwnd ?_
    rw [List.disjoint_left]
    intro a ha hws
    exact hws_not_vis a hws ha
  · exact List.mem_append_left _ inv.s_mem
  · intro h
    rcases List.mem_append.mp h with h | h
    · exact inv.t_not h
    · exact (hwprop t h).2.2.1 rfl
  · intro p' hp'
    rcases List.mem_append.mp hp' with hp' | hp'
    · obtain ⟨u₂, hl₂, hv₂, hval₂⟩ := inv.q_path p' (List.mem_cons_of_mem p hp')
      exact ⟨u₂, hl₂, List.mem_append_left _ hv₂, hval₂⟩
    · obtain ⟨w, hwmem, hpw⟩ := List.mem_map.mp hp'
      obtain ⟨hnv, hwk, hnt, f, hf, hopen, hwe⟩ := hwprop w hwmem
      have hstep : openAdj m u w := ⟨inv.vis_sub u huvis, hwk, f, hf, hwe, hopen⟩
      refine ⟨w, ?_, List.mem_append_right _ hwmem, ?_⟩
      · rw [← hpw]
        exact List.getLast?_concat p
      · rw [← hpw]
        exact valid_snoc hvalid hstep
  · intro p' hp' u₂ hl₂ r hr
    rcases List.mem_append.mp hp' with hp' | hp'
    · exact inv.q_short p' (List.mem_cons_of_mem p hp') u₂ hl₂ r hr
    · obtain ⟨w, hwmem, hpw⟩ := List.mem_map.mp hp'
      rw [← hpw, List.getLast?_concat] at hl₂
      have hwu : w = u₂ := Option.some_inj.mp hl₂
      rw [← hwu] at hr
      have := hfr_old w ((hwprop w hwmem).1) r hr
      rw [← hpw]
      simpa using this
  · rw [hlastsmap]
    refine List.Nodup.append ?_ hwnd ?_
    · have hnd := inv.q_lasts_nd
      rw [hqeq] at hnd
      exact hnd.of_cons
    · rw [List.disjoint_left]
      intro a ha hws
      exact hws_not_vis a hws (hrest_lasts_vis a ha)
  · rw [List.map_append, List.pairwise_append]
    refine ⟨?_, ?_, ?_⟩
    · have hso := inv.q_sorted
      rw [List.map_cons] at hso
      exact hso.of_cons
    · rw [List.map_map]
      have hconst : ws.map (List.length ∘ fun w => p ++ [w]) =
          ws.map (fun _ => p.length + 1) :=
        List.map_congr_left (fun w _ => by simp [Function.comp])
      rw [hconst]
      exact pairwise_const_le ws (p.length + 1)
    · intro a ha b hb
      obtain ⟨p', hp', hpl⟩ := List.mem_map.mp ha
      obtain ⟨pw, hpw, hbl⟩ := List.mem_map.mp hb
      obtain ⟨w, hwmem, hpwe⟩ := List.mem_map.mp hpw
      have h1 : p'.length ≤ p.length + 1 := hspread_old p' (List.mem_cons_of_mem p hp')
      have h2 : pw.length = p.length + 1 := by
        rw [← hpwe]
        simp
      rw [← hpl, ← hbl, h2]
      exact h1
  · intro p₀ hp₀ p' hp'
    rw [Option.mem_def] at hp₀
    cases rest with
    | nil =>
      simp only [List.nil_append] at hp₀ hp'
      have hp₀m : p₀ ∈ ws.map (fun w => p ++ [w]) :=
        List.mem_of_mem_head? (Option.mem_def.mpr hp₀)
      obtain ⟨w', _, hpe⟩ := List.mem_map.mp hp₀m
      have hp₀l : p₀.length = p.length + 1 := by
        rw [← hpe]
        simp
      obtain ⟨w'', _, hpe'⟩ := List.mem_map.mp hp'
      have : p'.length = p.length + 1 := by
        rw [← hpe']
        simp
      omega
    | cons p₁ rest' =>
      rw [List.cons_append, List.head?_cons] at hp₀
      have hp₀e : p₁ = p₀ := Option.some_inj.mp hp₀
      have hp₀len : p₁.length = p₀.length := by rw [hp₀e]
      have hp1le : p.length ≤ p₁.length := hsorted_head p₁ (by simp)
      rcases List.mem_append.mp hp' with hm | hm
      · have := hspread_old p' (List.mem_cons_of_mem p hm)
        omega
      · obtain ⟨w'', _, hpe'⟩ := List.mem_map.mp hm
        have : p'.length = p.length + 1 := by
          rw [← hpe']
          simp
        omega
  · intro v hv hvl f hf hopen
    rw [hlastsmap] at hvl
    have hv_vis : v ∈ vis := by
      rcases List.mem_append.mp hv with h | h
      · exact h
      · exact absurd (List.mem_append_right _ h) hvl
    by_cases hvu : v = u
    · subst hvu
      exact hcomp f hf hopen
    · have hvl_old : v ∉ qLasts s (p :: rest) := by
        rw [hqeq]
        intro hm
        rcases List.mem_cons.mp hm with hm | hm
        · exact hvu hm
        · exact hvl (List.mem_append_left _ hm)
      obtain ⟨hnt, hmem⟩ := inv.expanded v hv_vis hvl_old f hf hopen
      exact ⟨hnt, fun hk => List.mem_append_left _ (hmem hk)⟩
  · intro p₀ hp₀ w hw r hr
    rw [Option.mem_def] at hp₀
    have hwnvis : w ∉ vis := fun h => hw (List.mem_append_left _ h)
    have h1 : p.length + 1 ≤ r.length := hfr_old w hwnvis r hr
    have hkey : (∀ p' ∈ rest, p.length + 1 ≤ p'.length) → p.length + 2 ≤ r.length := by
      intro hrestlen
      by_contra hcon
      have hreq : r.length = p.length + 1 := by omega
      have h2 : 2 ≤ r.length := by omega
      obtain ⟨q₀, u₂, hre, hq₀, hstep, hlen2⟩ := valid_decomp hr h2
      by_cases hu₂vis : u₂ ∈ vis
      · by_cases hu₂l : u₂ ∈ qLasts s (p :: rest)
        · rw [hqeq] at hu₂l
          rcases List.mem_cons.mp hu₂l with hm | hm
          · subst hm
            obtain ⟨_, hwk, f', hf', hwe, hopen'⟩ := hstep
            have hmem := (hcomp f' hf' hopen').2 (hwe ▸ hwk)
            rw [← hwe] at hmem
            exact hw hmem
          · obtain ⟨p', hp'r, hpl'⟩ := List.mem_map.mp hm
            obtain ⟨u₃, hl₃, _, hval₃⟩ := inv.q_path p' (List.mem_cons_of_mem p hp'r)
            have hu₃ : u₃ = u₂ := by
              rw [lastD_eq hl₃ s] at hpl'
              exact hpl'
            have hshort := inv.q_short p' (List.mem_cons_of_mem p hp'r) u₂
              (hu₃ ▸ hl₃) q₀ hq₀
            have := hrestlen p' hp'r
            omega
        · obtain ⟨_, hwk, f', hf', hwe, hopen'⟩ := hstep
          have hmem := (inv.expanded u₂ hu₂vis hu₂l f' hf' hopen').2 (hwe ▸ hwk)
          rw [← hwe] at hmem
          exact hwnvis hmem
      · have := hfr_old u₂ hu₂vis q₀ hq₀
        omega
    cases rest with
    | nil =>
      simp only [List.nil_append] at hp₀
      have hp₀m : p₀ ∈ ws.map (fun w => p ++ [w]) :=
        List.mem_of_mem_head? (Option.mem_def.mpr hp₀)
      obtain ⟨w', _, hpe⟩ := List.mem_map.mp hp₀m
      have hp₀l : p₀.length = p.length + 1 := by
        rw [← hpe]
        simp
      have := hkey (by intro p' hp'; simp at hp')
      omega
    | cons p₁ rest' =>
      rw [List.cons_append, List.head?_cons] at hp₀
      have hp₀e : p₁ = p₀ := Option.some_inj.mp hp₀
      have hp₀len : p₁.length = p₀.length := by rw [hp₀e]
      have hp1le : p.length ≤ p₁.length := hsorted_head p₁ (by simp)
      have hp1ge : p₁.length ≤ p.length + 1 :=
        hspread_old p₁ (List.mem_cons_of_mem p (by simp))
      by_cases hc : p₁.length ≤ p.length
      · omega
      · have hrestlen : ∀ p' ∈ p₁ :: rest', p.length + 1 ≤ p'.length := by
          intro p' hp'
          rcases List.mem_cons.mp hp' with hm | hm
          · rw [hm]
            omega
          · have hso := inv.q_sorted
            rw [List.map_cons, List.map_cons] at hso
            have hso' := List.Pairwise.of_cons hso
            have := List.rel_of_pairwise_cons hso' (List.mem_map_of_mem List.length hm)
            omega
        have := hkey hrestlen
        omega

/-- Full specification of the BFS loop: under the invariant and with
fuel dominating the measure `queue.length + |unvisited keys|`, a
returned path is a valid shortest path to the goal, and `none` means no
valid path to the goal exists. -/
theorem bfsLoop_spec {m : JMap Cell} (hcoh : Coh m) {s t : Key} (ht : t ∈ jKeys m) :
    ∀ (fuel : Nat) (queue : List (List Key)) (vis : List Key),
    BfsInv m s t queue vis →
    queue.length + ((jKeys m).length - vis.length) < fuel →
    (∀ r, bfsLoop m t fuel queue vis = some r →
      ValidPath m s t r ∧ ∀ q, ValidPath m s t q → r.length ≤ q.length) ∧
    (bfsLoop m t fuel queue vis = none → ∀ r, ¬ ValidPath m s t r) := by
  intro fuel
  induction fuel with
  | zero =>
    intro queue vis inv hfuel
    exact absurd hfuel (Nat.not_lt_zero _)
  | succ fuel ih =>
    intro queue vis inv hfuel
    cases queue with
    | nil =>
      constructor
      · intro r hr
        simp [bfsLoop] at hr
      · intro _ r
        exact bfs_empty_no_path inv r
    | cons p rest =>
      obtain ⟨u, hlast, huvis, hvalid⟩ := inv.q_path p (List.mem_cons_self p rest)
      have hpne : p ≠ [] := valid_ne_nil hvalid
      have hplast : p.getLastD ((0 : Int), (0 : Int)) = u := lastD_eq hlast _
      have hum : u ∈ jKeys m := inv.vis_sub u huvis
      obtain ⟨cell, hcell⟩ := mem_jKeys hum
      have hpos : ((cell.position.1 : Int), cell.position.2.2) = u := coh_pos hcoh hcell
      have hred : bfsLoop m t (fuel + 1) (p :: rest) vis =
          match stepFaces m t p u cell HORIZONTAL_FACES vis rest with
          | Sum.inl found => some found
          | Sum.inr vq => bfsLoop m t fuel vq.2 vq.1 := by
        simp only [bfsLoop, hplast, hcell, hpos]
      cases hsf : stepFaces m t p u cell HORIZONTAL_FACES vis rest with
      | inl found =>
        have heq : bfsLoop m t (fuel + 1) (p :: rest) vis = some found := by
          rw [hred, hsf]
        obtain ⟨hfr, f, hf, ho, he⟩ := stepFaces_inl _ _ _ _ hsf
        have hopen : openS (faceAt m u f) := by
          rw [faceAt_eq_of_get hcell]
          exact openSingleB_iff.mp ho
        have hadj : openAdj m u t := ⟨hum, ht, f, hf, he.symm, hopen⟩
        have hvfound : ValidPath m s t (p ++ [t]) := valid_snoc hvalid hadj
        have hmin : ∀ r, ValidPath m s t r → p.length + 1 ≤ r.length := by
          intro r hr
          have h2 : 2 ≤ r.length := by
            rcases Nat.lt_or_ge r.length 2 with hlt | hge
            · exfalso
              have h1 : r.length = 1 := by
                have := valid_one_le hr
                omega
              have := valid_len_one hr h1
              exact inv.t_not (this ▸ inv.s_mem)
            · exact hge
          obtain ⟨q₀, u₂, hre, hq₀, hstep, hlen2⟩ := valid_decomp hr h2
          by_cases hu₂vis : u₂ ∈ vis
          · by_cases hu₂l : u₂ ∈ qLasts s (p :: rest)
            · obtain ⟨p', hp', hpl'⟩ := List.mem_map.mp hu₂l
              obtain ⟨u₃, hl₃, _, _⟩ := inv.q_path p' hp'
              have hu₃ : u₃ = u₂ := by
                rw [lastD_eq hl₃ s] at hpl'
                exact hpl'
              have hshort := inv.q_short p' hp' u₂ (hu₃ ▸ hl₃) q₀ hq₀
              have hple : p.length ≤ p'.length := by
                rcases List.mem_cons.mp hp' with hm | hm
                · simp [hm]
                · have hso := inv.q_sorted
                  rw [List.map_cons] at hso
                  exact List.rel_of_pairwise_cons hso
                    (List.mem_map_of_mem List.length hm)
              omega
            · obtain ⟨_, hwk, f', hf', hwe, hopen'⟩ := hstep
              exact absurd hwe.symm
                ((inv.expanded u₂ hu₂vis hu₂l f' hf' hopen').1)
          · have := inv.frontier p (Option.mem_def.mpr rfl) u₂ hu₂vis q₀ hq₀
            omega
        constructor
        · intro r hr
          rw [heq] at hr
          have hfound : found = r := Option.some_inj.mp hr
          subst hfound
          subst hfr
          refine ⟨hvfound, fun q hq => ?_⟩
          have := hmin q hq
          simpa using this
        · intro hnone
          rw [heq] at hnone
          exact Option.noConfusion hnone
      | inr vq =>
        obtain ⟨vis', q'⟩ := vq
        have heq : bfsLoop m t (fuel + 1) (p :: rest) vis = bfsLoop m t fuel q' vis' := by
          rw [hred, hsf]
        obtain ⟨ws, hv, hq, hwnd, hwprop, hcomp⟩ := stepFaces_inr _ _ _ _ _ hsf
        have hwprop' : ∀ w ∈ ws, w ∉ vis ∧ w ∈ jKeys m ∧ w ≠ t ∧
            ∃ f ∈ HORIZONTAL_FACES, openS (faceAt m u f) ∧ w = adjK u f := by
          intro w hw
          obtain ⟨h1, h2, h3, f, hf, hob, he⟩ := hwprop w hw
          refine ⟨h1, jHas_iff.mp h2, h3, f, hf, ?_, he⟩
          rw [faceAt_eq_of_get hcell]
          exact openSingleB_iff.mp hob
        have hcomp' : ∀ f ∈ HORIZONTAL_FACES, openS (faceAt m u f) →
            adjK u f ≠ t ∧ (adjK u f ∈ jKeys m → adjK u f ∈ vis ++ ws) := by
          intro f hf ho
          have hob : openSingleB (cell.faceOptions.getD f []) = true := by
            rw [faceAt_eq_of_get hcell] at ho
            exact openSingleB_iff.mpr ho
          obtain ⟨h1, h2⟩ := hcomp f hf hob
          exact ⟨h1, fun hk => h2 (jHas_iff.mpr hk)⟩
        have inv' : BfsInv m s t q' vis' := by
          rw [hv, hq]
          exact bfs_step_inv inv hlast hwnd hwprop' hcomp'
        have hvk : vis'.length ≤ (jKeys m).length :=
          nodup_subset_length inv'.vis_nd (fun x hx => inv'.vis_sub x hx)
        have hmeas : q'.length + ((jKeys m).length - vis'.length) < fuel := by
          have hq'len : q'.length = rest.length + ws.length := by
            rw [hq]
            simp
          have hv'len : vis'.length = vis.length + ws.length := by
            rw [hv]
            simp
          have hql : (p :: rest).length = rest.length + 1 := by simp
          omega
        have hres := ih q' vis' inv' hmeas
        rw [heq]
        exact hres

/-- C7: on a coherent resolved chunk, `findPath` returns none when
either key is absent; returns the single-element path when the keys
coincide; and otherwise any returned path is a valid path from start to
goal (consecutive cells grid-adjacent with the earlier cell's shared
face resolved to a single open id) of minimal length, hence of minimal
edge count, while `none` is returned exactly when no valid path exists. -/
theorem c7_findPath_correct (m : JMap Cell) (hcoh : Coh m) (s t : Key) :
    (¬ (s ∈ jKeys m ∧ t ∈ jKeys m) → findPath m s t = none) ∧
    (s ∈ jKeys m → t ∈ jKeys m → s = t → findPath m s t = some [s]) ∧
    (s ∈ jKeys m → t ∈ jKeys m → s ≠ t →
      (∀ r, findPath m s t = some r →
        ValidPath m s t r ∧ ∀ q, ValidPath m s t q → r.length ≤ q.length) ∧
      (findPath m s t = none → ∀ r, ¬ ValidPath m s t r)) := by
  refine ⟨?_, ?_, ?_⟩
  · intro h
    unfold findPath
    have hneg : ¬ ((jHas m s && jHas m t) = true) := by
      intro hcon
      rw [Bool.and_eq_true] at hcon
      exact h ⟨jHas_iff.mp hcon.1, jHas_iff.mp hcon.2⟩
    rw [if_neg hneg]
  · intro hs ht hst
    unfold findPath
    have hcond : (jHas m s && jHas m t) = true := by
      rw [Bool.and_eq_true]
      exact ⟨jHas_iff.mpr hs, jHas_iff.mpr ht⟩
    rw [if_pos hcond, if_pos hst]
  · intro hs ht hst
    have hcond : (jHas m s && jHas m t) = true := by
      rw [Bool.and_eq_true]
      exact ⟨jHas_iff.mpr hs, jHas_iff.mpr ht⟩
    have hfe : findPath m s t = bfsLoop m t (m.length + 1) [[s]] [s] := by
      unfold findPath
      rw [if_pos hcond, if_neg hst]
    have hK : (jKeys m).length = m.length := by simp [jKeys]
    have hK1 : 1 ≤ (jKeys m).length := List.length_pos.mpr (List.ne_nil_of_mem hs)
    have hmeas : ([[s]] : List (List Key)).length +
        ((jKeys m).length - ([s] : List Key).length) < m.length + 1 := by
      have h1 : ([[s]] : List (List Key)).length = 1 := rfl
      have h2 : ([s] : List Key).length = 1 := rfl
      omega
    have hspec := bfsLoop_spec hcoh ht (m.length + 1) [[s]] [s]
      (bfs_init_inv hs hst) hmeas
    rw [hfe]
    exact hspec

/-- A small concrete resolved chunk: the 3-by-1 cascade with target 2
under the all-zeros random stream, holding cells (0,0) and (-1,0). -/
def demoChunk : JMap Cell := (generateCascade 3 1 2 (fun _ => 0)).collapsedCells

/-- C7 witness: on the concrete chunk, the path returned between keys
(0,0) and (-1,0) is valid and no valid path between them is shorter. -/
theorem c7_witness :
    ValidPath demoChunk ((0 : Int), (0 : Int)) ((-1 : Int), (0 : Int))
      [((0 : Int), (0 : Int)), ((-1 : Int), (0 : Int))] ∧
    ∀ q, ValidPath demoChunk ((0 : Int), (0 : Int)) ((-1 : Int), (0 : Int)) q →
      2 ≤ q.length := by
  have h := ((c7_findPath_correct demoChunk (by decide) ((0 : Int), (0 : Int))
      ((-1 : Int), (0 : Int))).2.2 (by decide) (by decide) (by decide)).1
      [((0 : Int), (0 : Int)), ((-1 : Int), (0 : Int))] (by decide)
  exact ⟨h.1, fun q hq => h.2 q hq⟩

end SPP
